import Mathlib

/-!
Associative array with open addressing (aalib)

A shallow embedding of `src/aalib/hash-functions.c` and `src/aalib/hash-table.c`.

Conventions of the embedding.

* A key buffer (`AAKeyType`, an `unsigned char *`) is a list of byte values; the key
  length travels separately, as in the C signatures.  `memcpy (dst, key, keylen)` copies
  `key.take keylen` and `memcmp (a, b, n)` compares `a.take n` with `b.take n`.
* A pointer to a key buffer stored in a slot is `Option AAKeyType`, `none` being `NULL`.
* A `void *` value is the natural number of its address, `0` being `NULL`.
* `HashIndex` is a signed machine integer; it is an `Int` here.  Index arithmetic in the
  table engine is done without wrap-around: table sizes come from `getLargerPrime`, which
  knows only primes below 5000 (comment of `aaCreateAssociativeArray`), far from the range
  of `int`.  For `hashBySum`, which any caller may hand any size, the machine arithmetic is
  given as well (`hashBySumInt`, with the width of `HashIndex` as an argument), and
  `hashBySumInt_eq_hashBySum` states up to which size the two agree.
* The `while` loops of the probes are recursive functions on a fuel argument and return
  `none` only when the fuel runs out before the loop returns.
* `hashtools.h` is not among the source files; the three validity constants and the
  layout of `KeyDataPair` and `AssociativeArray` are taken from their uses.
-/

namespace AALib

/-- The validity tag of a slot.  `memset` to zero in `aaCreateAssociativeArray`
makes every slot `HASH_EMPTY`. -/
inductive Validity where
  | HASH_EMPTY
  | HASH_USED
  | HASH_DELETED
  deriving DecidableEq

open Validity

/-- A key buffer: the bytes behind an `AAKeyType` pointer. -/
abbrev AAKeyType := List Nat

/-- Signed index type of the table; `-1` is the failure sentinel. -/
abbrev HashIndex := Int

/-- A hash function pointer: `(key, keyLength, size) -> index`. -/
abbrev HashAlgorithm := AAKeyType → Nat → Nat → Nat

/-- One slot of the table (`KeyDataPair`). -/
structure KeyDataPair where
  key : Option AAKeyType
  keylen : Nat
  value : Nat
  validity : Validity
  deriving DecidableEq

/-- The probing function a table is bound to (the `hashProbe` function pointer
can only hold one of the three probes of `hash-functions.c`). -/
inductive HashProbe where
  | linear
  | quadratic
  | doubleHash
  deriving DecidableEq

/-- The table (`AssociativeArray`).  The three name strings kept for diagnostics
are left out: no operation reads them except to print them. -/
structure AssociativeArray where
  hashAlgorithmPrimary : HashAlgorithm
  hashAlgorithmSecondary : HashAlgorithm
  hashProbe : HashProbe
  size : Nat
  table : List KeyDataPair
  nEntries : Int
  insertCost : Nat
  searchCost : Nat
  deleteCost : Nat

/-- A slot as `memset (.., 0, ..)` leaves it. -/
def zeroSlot : KeyDataPair := ⟨none, 0, 0, HASH_EMPTY⟩

/-- The slot `(hashTable->table)[j]`.  Every index the probes compute from a start
index below `size` is below `size`; the fallback is never read on such a table. -/
def slotAt (hashTable : AssociativeArray) (j : Nat) : KeyDataPair :=
  hashTable.table.getD j zeroSlot

/-- `doKeysMatch`: 0 when the lengths differ, otherwise whether `memcmp` over
`key1len` bytes finds no difference. -/
def doKeysMatch (key1 : AAKeyType) (key1len : Nat) (key2 : AAKeyType) (key2len : Nat) : Int :=
  if key1len ≠ key2len then 0
  else if key1.take key1len = key2.take key1len then 1 else 0

/-- `hashByLength`: `keyLength % size`. -/
def hashByLength (_key : AAKeyType) (keyLength : Nat) (size : Nat) : Nat :=
  keyLength % size

/-- `hashBySum`: the `for` loop over the first `keyLength` bytes, the accumulator
reduced modulo `size` after every byte.  This is the value the C function returns as
long as no addition `sum + key[i]` leaves the range of `HashIndex`, that is for every
`size` up to the largest `HashIndex` minus 254 (`hashBySumInt_eq_hashBySum`); beyond
that the machine computation is `hashBySumInt`. -/
def hashBySum (key : AAKeyType) (keyLength : Nat) (size : Nat) : Nat :=
  (key.take keyLength).foldl (fun sum b => (sum + b) % size) 0

/-- The test `slot.key != NULL && doKeysMatch (slot.key, slot.keylen, key, keylen) == 1`. -/
def slotKeyMatches (s : KeyDataPair) (key : AAKeyType) (keylen : Nat) : Bool :=
  match s.key with
  | none => false
  | some k => decide (doKeysMatch k s.keylen key keylen = 1)

/-- The first test of every probe loop: the slot has a key buffer, is `HASH_USED`
and its key matches the key sought. -/
def slotHasKey (s : KeyDataPair) (key : AAKeyType) (keylen : Nat) : Bool :=
  decide (s.validity = HASH_USED) && slotKeyMatches s key keylen

/-- The `while` loop of `linearProbe`; `j` is the loop variable, `cost` the counter
behind the `cost` pointer.  Releasing a tombstone's key buffer is not represented:
the caller overwrites that pointer before anything reads it. -/
def linearProbeLoop (hashTable : AssociativeArray) (key : AAKeyType) (keylength : Nat)
    (index : Nat) (invalidEndsSearch : Bool) : Nat → Nat → Nat → Option (HashIndex × Nat)
  | 0, _, _ => none
  | fuel + 1, j, cost =>
    let keyDataPairValidity := (slotAt hashTable j).validity
    let cost := cost + 1
    if slotHasKey (slotAt hashTable j) key keylength then some ((j : Int), cost)
    else if keyDataPairValidity = HASH_EMPTY then some ((j : Int), cost)
    else if invalidEndsSearch = true ∧ keyDataPairValidity = HASH_DELETED then
      some ((j : Int), cost)
    else
      let j := (j + 1) % hashTable.size
      if j = index then some (-1, cost)
      else linearProbeLoop hashTable key keylength index invalidEndsSearch fuel j cost

/-- `linearProbe`: returns the index where the search stopped, or `-1`, together
with the updated cost counter. -/
def linearProbe (fuel : Nat) (hashTable : AssociativeArray) (key : AAKeyType)
    (keylength : Nat) (index : Nat) (invalidEndsSearch : Bool) (cost : Nat) :
    Option (HashIndex × Nat) :=
  linearProbeLoop hashTable key keylength index invalidEndsSearch fuel index cost

/-- The `while` loop of `quadraticProbe`, on the loop variables `step` and `j`. -/
def quadraticProbeLoop (hashTable : AssociativeArray) (key : AAKeyType) (keylen : Nat)
    (startIndex : Nat) (invalidEndsSearch : Bool) :
    Nat → Nat → Nat → Nat → Option (HashIndex × Nat)
  | 0, _, _, _ => none
  | fuel + 1, step, j, cost =>
    let keyDataPairValidity := (slotAt hashTable j).validity
    let cost := cost + 1
    if slotHasKey (slotAt hashTable j) key keylen then some ((j : Int), cost)
    else if keyDataPairValidity = HASH_EMPTY then some ((j : Int), cost)
    else if invalidEndsSearch = true ∧ keyDataPairValidity = HASH_DELETED then
      some ((j : Int), cost)
    else
      let step := step + 1
      let j := (startIndex + step * step) % hashTable.size
      if step = hashTable.size then some (-1, cost)
      else quadraticProbeLoop hashTable key keylen startIndex invalidEndsSearch fuel step j cost

/-- `quadraticProbe`. -/
def quadraticProbe (fuel : Nat) (hashTable : AssociativeArray) (key : AAKeyType)
    (keylen : Nat) (startIndex : Nat) (invalidEndsSearch : Bool) (cost : Nat) :
    Option (HashIndex × Nat) :=
  quadraticProbeLoop hashTable key keylen startIndex invalidEndsSearch fuel 0 startIndex cost

/-- The `while` loop of `doubleHashProbe`; `step` is the secondary hash of the key. -/
def doubleHashProbeLoop (hashTable : AssociativeArray) (key : AAKeyType) (keylen : Nat)
    (startIndex : Nat) (invalidEndsSearch : Bool) (step : Nat) :
    Nat → Nat → Nat → Option (HashIndex × Nat)
  | 0, _, _ => none
  | fuel + 1, j, cost =>
    let keyDataPairValidity := (slotAt hashTable j).validity
    let cost := cost + 1
    if slotHasKey (slotAt hashTable j) key keylen then some ((j : Int), cost)
    else if keyDataPairValidity = HASH_EMPTY then some ((j : Int), cost)
    else if invalidEndsSearch = true ∧ keyDataPairValidity = HASH_DELETED then
      some ((j : Int), cost)
    else
      let j := (j + step) % hashTable.size
      if j = startIndex then some (-1, cost)
      else doubleHashProbeLoop hashTable key keylen startIndex invalidEndsSearch step fuel j cost

/-- `doubleHashProbe`. -/
def doubleHashProbe (fuel : Nat) (hashTable : AssociativeArray) (key : AAKeyType)
    (keylen : Nat) (startIndex : Nat) (invalidEndsSearch : Bool) (cost : Nat) :
    Option (HashIndex × Nat) :=
  doubleHashProbeLoop hashTable key keylen startIndex invalidEndsSearch
    (hashTable.hashAlgorithmSecondary key keylen hashTable.size) fuel startIndex cost

/-- The call `(*(aarray->hashProbe)) (aarray, key, keylen, index, flag, &cost)`. -/
def callProbe (fuel : Nat) (aarray : AssociativeArray) (key : AAKeyType) (keylen : Nat)
    (index : Nat) (invalidEndsSearch : Bool) (cost : Nat) : Option (HashIndex × Nat) :=
  match aarray.hashProbe with
  | HashProbe.linear => linearProbe fuel aarray key keylen index invalidEndsSearch cost
  | HashProbe.quadratic => quadraticProbe fuel aarray key keylen index invalidEndsSearch cost
  | HashProbe.doubleHash => doubleHashProbe fuel aarray key keylen index invalidEndsSearch cost

/-- The validity read by `aarray->table[finalIndex].validity`.  When `finalIndex` is
outside the array the read returns whatever lies there: the argument `stray`. -/
def validityAt (aarray : AssociativeArray) (stray : Validity) (finalIndex : HashIndex) :
    Validity :=
  if 0 ≤ finalIndex ∧ finalIndex < (aarray.size : Int) then
    (slotAt aarray finalIndex.toNat).validity
  else stray

/-- `aaInsert`: returns the slot index or `-1`, and the table afterwards. -/
def aaInsert (fuel : Nat) (stray : Validity) (aarray : AssociativeArray) (key : AAKeyType)
    (keylen : Nat) (value : Nat) : Option (Int × AssociativeArray) :=
  let hasedIndex := aarray.hashAlgorithmPrimary key keylen aarray.size
  match callProbe fuel aarray key keylen hasedIndex true aarray.insertCost with
  | none => none
  | some (finalIndex, cost) =>
    let aarray := { aarray with insertCost := cost }
    if validityAt aarray stray finalIndex = HASH_USED then some (-1, aarray)
    else if 0 ≤ finalIndex then
      some (finalIndex,
        { aarray with
          table := aarray.table.set finalIndex.toNat
            ⟨some (key.take keylen), keylen, value, HASH_USED⟩
          nEntries := aarray.nEntries + 1 })
    else some (finalIndex, aarray)

/-- `aaLookup`: returns the stored value or `NULL` (0), and the table afterwards
(only `searchCost` can differ). -/
def aaLookup (fuel : Nat) (aarray : AssociativeArray) (key : AAKeyType) (keylen : Nat) :
    Option (Nat × AssociativeArray) :=
  let hasedIndex := aarray.hashAlgorithmPrimary key keylen aarray.size
  match callProbe fuel aarray key keylen hasedIndex false aarray.searchCost with
  | none => none
  | some (finalIndex, cost) =>
    let aarray := { aarray with searchCost := cost }
    if 0 ≤ finalIndex ∧ (slotAt aarray finalIndex.toNat).validity = HASH_USED then
      if slotKeyMatches (slotAt aarray finalIndex.toNat) key keylen then
        some ((slotAt aarray finalIndex.toNat).value, aarray)
      else some (0, aarray)
    else some (0, aarray)

/-- `aaDelete`: returns the value of the entry removed or `NULL` (0), and the table
afterwards. -/
def aaDelete (fuel : Nat) (aarray : AssociativeArray) (key : AAKeyType) (keylen : Nat) :
    Option (Nat × AssociativeArray) :=
  let hasedIndex := aarray.hashAlgorithmPrimary key keylen aarray.size
  match callProbe fuel aarray key keylen hasedIndex false aarray.deleteCost with
  | none => none
  | some (finalIndex, cost) =>
    let aarray := { aarray with deleteCost := cost }
    if 0 ≤ finalIndex ∧ (slotAt aarray finalIndex.toNat).validity = HASH_USED then
      if slotKeyMatches (slotAt aarray finalIndex.toNat) key keylen then
        some ((slotAt aarray finalIndex.toNat).value,
          { aarray with
            table := aarray.table.set finalIndex.toNat
              { slotAt aarray finalIndex.toNat with validity := HASH_DELETED }
            nEntries := aarray.nEntries - 1 })
      else some (0, aarray)
    else some (0, aarray)

/-- `lookupNamedHashStrategy`: `strncmp (name, .., 3)` on the first three characters.
`hashByPrime` is defined outside the source files and is an argument. -/
def lookupNamedHashStrategy (hashByPrime : HashAlgorithm) (name : String) : HashAlgorithm :=
  if name.toList.take 3 = ['s', 'u', 'm'] then hashBySum
  else if name.toList.take 3 = ['l', 'e', 'n'] then hashByLength
  else if name.toList.take 3 = ['p', 'r', 'i'] then hashByPrime
  else hashBySum

/-- `lookupNamedProbingStrategy`. -/
def lookupNamedProbingStrategy (name : String) : HashProbe :=
  if name.toList.take 3 = ['l', 'i', 'n'] then HashProbe.linear
  else if name.toList.take 3 = ['q', 'u', 'a'] then HashProbe.quadratic
  else if name.toList.take 3 = ['d', 'o', 'u'] then HashProbe.doubleHash
  else HashProbe.linear

/-- `aaCreateAssociativeArray`; `none` is the `NULL` returned when no size is found.
`getLargerPrime` lives outside the source files and is an argument. -/
def aaCreateAssociativeArray (getLargerPrime : Nat → Int) (hashByPrime : HashAlgorithm)
    (size : Nat) (probingStrategy hashPrimary hashSecondary : String) :
    Option AssociativeArray :=
  let newSize := getLargerPrime size
  if newSize < 1 then none
  else some
    { hashAlgorithmPrimary := lookupNamedHashStrategy hashByPrime hashPrimary
      hashAlgorithmSecondary := lookupNamedHashStrategy hashByPrime hashSecondary
      hashProbe := lookupNamedProbingStrategy probingStrategy
      size := newSize.toNat
      table := List.replicate newSize.toNat zeroSlot
      nEntries := 0
      insertCost := 0
      searchCost := 0
      deleteCost := 0 }

/-- The `for` loop of `aaIterateAction`: `n` iterations remain, `i` is the loop variable.
The user function receives `(key, keylen, datavalue, userdata)` and returns its `int`
together with the user data as it leaves it.  The last component records the slots the
user function was called on, in call order. -/
def aaIterateLoop {U : Type} (aarray : AssociativeArray)
    (userfunction : Option AAKeyType → Nat → Nat → U → Int × U) :
    Nat → Nat → U → List KeyDataPair → Int × U × List KeyDataPair
  | 0, _, userdata, calls => (1, userdata, calls)
  | n + 1, i, userdata, calls =>
    if (slotAt aarray i).validity = HASH_USED then
      let r := userfunction (slotAt aarray i).key (slotAt aarray i).keylen
        (slotAt aarray i).value userdata
      if r.1 < 0 then (-1, r.2, calls ++ [slotAt aarray i])
      else aaIterateLoop aarray userfunction n (i + 1) r.2 (calls ++ [slotAt aarray i])
    else aaIterateLoop aarray userfunction n (i + 1) userdata calls

/-- `aaIterateAction`: the returned `int`, the user data afterwards and the calls made. -/
def aaIterateAction {U : Type} (aarray : AssociativeArray)
    (userfunction : Option AAKeyType → Nat → Nat → U → Int × U) (userdata : U) :
    Int × U × List KeyDataPair :=
  aaIterateLoop aarray userfunction aarray.size 0 userdata []

/-! ## The probe sequence

The three probes differ only in how the loop variables move and in the test that
reports the table full; what they do with the slot under `j` is the same. -/

/-- Whether a probe loop returns `j` on reading this slot: the key is there, or the
slot is empty, or it is a tombstone and `invalidEndsSearch` is set. -/
def stopsAt (s : KeyDataPair) (key : AAKeyType) (keylen : Nat) (invalidEndsSearch : Bool) :
    Bool :=
  slotHasKey s key keylen || decide (s.validity = HASH_EMPTY)
    || (invalidEndsSearch && decide (s.validity = HASH_DELETED))

/-- The update of the loop variables `(step, j)` at the end of one iteration:
`j = (j + 1) % size` for `linearProbe`, `step++; j = (startIndex + step * step) % size`
for `quadraticProbe`, `j = (j + step) % size` for `doubleHashProbe` (whose `step`,
the secondary hash, is the argument `step2`). -/
def probeAdvance (probe : HashProbe) (size step2 startIndex : Nat) (st : Nat × Nat) :
    Nat × Nat :=
  match probe with
  | HashProbe.linear => (st.1, (st.2 + 1) % size)
  | HashProbe.quadratic => (st.1 + 1, (startIndex + (st.1 + 1) * (st.1 + 1)) % size)
  | HashProbe.doubleHash => (st.1, (st.2 + step2) % size)

/-- The test, made on the updated loop variables, that ends a probe with `-1`:
`j == index` for `linearProbe` and `doubleHashProbe`, `step == size` for
`quadraticProbe`. -/
def probeFull (probe : HashProbe) (size startIndex : Nat) (st : Nat × Nat) : Bool :=
  match probe with
  | HashProbe.linear => decide (st.2 = startIndex)
  | HashProbe.quadratic => decide (st.1 = size)
  | HashProbe.doubleHash => decide (st.2 = startIndex)

/-- The loop variables `(step, j)` of the table's probe for a key after `n` completed
iterations, when no slot ended the search. -/
def probeState (aarray : AssociativeArray) (key : AAKeyType) (keylen : Nat) (n : Nat) :
    Nat × Nat :=
  (probeAdvance aarray.hashProbe aarray.size
    (aarray.hashAlgorithmSecondary key keylen aarray.size)
    (aarray.hashAlgorithmPrimary key keylen aarray.size))^[n]
    (0, aarray.hashAlgorithmPrimary key keylen aarray.size)

/-- The probe sequence of a key: the index examined in iteration `n` (from 0). -/
def probeSeq (aarray : AssociativeArray) (key : AAKeyType) (keylen : Nat) (n : Nat) : Nat :=
  (probeState aarray key keylen n).2

/-- Whether the probe reports the table full at the end of iteration `n`. -/
def probeFullAt (aarray : AssociativeArray) (key : AAKeyType) (keylen : Nat) (n : Nat) :
    Bool :=
  probeFull aarray.hashProbe aarray.size (aarray.hashAlgorithmPrimary key keylen aarray.size)
    (probeState aarray key keylen (n + 1))

/-- A probe loop over abstract loop variables: `stops j` says whether the slot at `j`
ends the search. -/
def walk (stops : Nat → Bool) (adv : Nat × Nat → Nat × Nat) (full : Nat × Nat → Bool) :
    Nat → Nat × Nat → Nat → Option (HashIndex × Nat)
  | 0, _, _ => none
  | fuel + 1, st, cost =>
    if stops st.2 then some ((st.2 : Int), cost + 1)
    else if full (adv st) then some (-1, cost + 1)
    else walk stops adv full fuel (adv st) (cost + 1)

/-- The walk from `st` ends in iteration `n` with result `r`: no earlier iteration
stopped or reported full, and iteration `n` stops at its slot (`r` is its index) or
reports full (`r = -1`). -/
def WalkEnds (stops : Nat → Bool) (adv : Nat × Nat → Nat × Nat) (full : Nat × Nat → Bool)
    (st : Nat × Nat) (n : Nat) (r : HashIndex) : Prop :=
  (∀ m, m < n → stops (adv^[m] st).2 = false ∧ full (adv^[m + 1] st) = false) ∧
  ((stops (adv^[n] st).2 = true ∧ r = ((adv^[n] st).2 : Int)) ∨
   (stops (adv^[n] st).2 = false ∧ full (adv^[n + 1] st) = true ∧ r = -1))

/-- The probe of a key with flag `invalidEndsSearch` ends in iteration `n` with
result `r`: no earlier iteration stopped at its slot or reported full, and iteration
`n` stops at slot `probeSeq n` (then `r` is that index) or reports full (`r = -1`). -/
def ProbeEnds (aarray : AssociativeArray) (key : AAKeyType) (keylen : Nat)
    (invalidEndsSearch : Bool) (n : Nat) (r : HashIndex) : Prop :=
  (∀ m, m < n →
    stopsAt (slotAt aarray (probeSeq aarray key keylen m)) key keylen invalidEndsSearch = false
      ∧ probeFullAt aarray key keylen m = false) ∧
  ((stopsAt (slotAt aarray (probeSeq aarray key keylen n)) key keylen invalidEndsSearch = true
      ∧ r = (probeSeq aarray key keylen n : Int)) ∨
   (stopsAt (slotAt aarray (probeSeq aarray key keylen n)) key keylen invalidEndsSearch = false
      ∧ probeFullAt aarray key keylen n = true ∧ r = -1))

/-! ## Tables and states the properties range over -/

/-- The contract of the bound hash functions: the primary hash returns an index
below `size`, and both hashes read only the first `keylen` bytes of the key. -/
def HashContract (aarray : AssociativeArray) : Prop :=
  (∀ key keylen, aarray.hashAlgorithmPrimary key keylen aarray.size < aarray.size) ∧
  (∀ key key2 keylen, key.take keylen = key2.take keylen →
    aarray.hashAlgorithmPrimary key keylen aarray.size
      = aarray.hashAlgorithmPrimary key2 keylen aarray.size) ∧
  (∀ key key2 keylen, key.take keylen = key2.take keylen →
    aarray.hashAlgorithmSecondary key keylen aarray.size
      = aarray.hashAlgorithmSecondary key2 keylen aarray.size)

/-- A table whose slot array has `size` slots, `size` positive, with hash functions
that keep their contract. -/
def WellFormed (aarray : AssociativeArray) : Prop :=
  0 < aarray.size ∧ aarray.table.length = aarray.size ∧ HashContract aarray

/-- The states reachable from a newly created table by `aaInsert`, `aaDelete` and
`aaLookup` calls that return. -/
inductive Reachable : AssociativeArray → Prop where
  | created (getLargerPrime : Nat → Int) (hashByPrime : HashAlgorithm) (size : Nat)
      (probingStrategy hashPrimary hashSecondary : String) (aarray : AssociativeArray) :
      aaCreateAssociativeArray getLargerPrime hashByPrime size probingStrategy
        hashPrimary hashSecondary = some aarray →
      HashContract aarray → Reachable aarray
  | insert (fuel : Nat) (stray : Validity) (aarray : AssociativeArray) (key : AAKeyType)
      (keylen value : Nat) (r : Int) (aarray2 : AssociativeArray) :
      Reachable aarray → aaInsert fuel stray aarray key keylen value = some (r, aarray2) →
      Reachable aarray2
  | delete (fuel : Nat) (aarray : AssociativeArray) (key : AAKeyType)
      (keylen : Nat) (r : Nat) (aarray2 : AssociativeArray) :
      Reachable aarray → aaDelete fuel aarray key keylen = some (r, aarray2) →
      Reachable aarray2
  | lookup (fuel : Nat) (aarray : AssociativeArray) (key : AAKeyType)
      (keylen : Nat) (r : Nat) (aarray2 : AssociativeArray) :
      Reachable aarray → aaLookup fuel aarray key keylen = some (r, aarray2) →
      Reachable aarray2

/-- Number of slots of the table whose validity is `HASH_USED`. -/
def countUsed (aarray : AssociativeArray) : Nat :=
  aarray.table.countP (fun s => decide (s.validity = HASH_USED))

/-- Two tables with the same size, probe and hash functions: the probe sequences of a
key are the same in both. -/
def SameShape (a b : AssociativeArray) : Prop :=
  b.hashProbe = a.hashProbe ∧ b.size = a.size ∧
  b.hashAlgorithmPrimary = a.hashAlgorithmPrimary ∧
  b.hashAlgorithmSecondary = a.hashAlgorithmSecondary

/-- The slot `aaInsert` writes. -/
def newSlot (key : AAKeyType) (keylen value : Nat) : KeyDataPair :=
  ⟨some (key.take keylen), keylen, value, HASH_USED⟩

/-- What `aaLookup` returns once its probe has returned `finalIndex`: the value of the
slot when it is in use and holds the key, `NULL` otherwise. -/
def lookupValue (aarray : AssociativeArray) (finalIndex : HashIndex) (key : AAKeyType)
    (keylen : Nat) : Nat :=
  if 0 ≤ finalIndex ∧ (slotAt aarray finalIndex.toNat).validity = HASH_USED then
    if slotKeyMatches (slotAt aarray finalIndex.toNat) key keylen then
      (slotAt aarray finalIndex.toNat).value
    else 0
  else 0

/-- Every slot that is not empty lies on the probe sequence of the key it holds, at an
iteration before which the sequence meets no empty slot and no report of a full table:
the slot is where an insert probe of that key once stopped. -/
def Placed (aarray : AssociativeArray) : Prop :=
  ∀ i ks, i < aarray.size → (slotAt aarray i).validity ≠ HASH_EMPTY →
    (slotAt aarray i).key = some ks →
    ∃ n, probeSeq aarray ks (slotAt aarray i).keylen n = i ∧
      ∀ m, m < n →
        (slotAt aarray (probeSeq aarray ks (slotAt aarray i).keylen m)).validity ≠ HASH_EMPTY
          ∧ probeFullAt aarray ks (slotAt aarray i).keylen m = false

/-- One call on the table: an insert (with the stray read it may make), a delete or a
lookup. -/
inductive TableOp where
  | insert (stray : Validity) (key : AAKeyType) (keylen value : Nat)
  | delete (key : AAKeyType) (keylen : Nat)
  | lookup (key : AAKeyType) (keylen : Nat)

/-- The key and key length a call is made with. -/
def TableOp.keyOf : TableOp → AAKeyType × Nat
  | TableOp.insert _ key keylen _ => (key, keylen)
  | TableOp.delete key keylen => (key, keylen)
  | TableOp.lookup key keylen => (key, keylen)

/-- The table after one call; `none` if the call does not return within the fuel. -/
def applyOp (fuel : Nat) (aarray : AssociativeArray) : TableOp → Option AssociativeArray
  | TableOp.insert stray key keylen value =>
    (aaInsert fuel stray aarray key keylen value).map Prod.snd
  | TableOp.delete key keylen => (aaDelete fuel aarray key keylen).map Prod.snd
  | TableOp.lookup key keylen => (aaLookup fuel aarray key keylen).map Prod.snd

/-- The table after a sequence of calls. -/
def runOps (fuel : Nat) : List TableOp → AssociativeArray → Option AssociativeArray
  | [], aarray => some aarray
  | op :: ops, aarray =>
    match applyOp fuel aarray op with
    | none => none
    | some aarray2 => runOps fuel ops aarray2

/-! ## The scenarios of the specification -/

/-- An empty table of the given size with sum hash, length hash as secondary hash. -/
def emptyTable (probe : HashProbe) (size : Nat) : AssociativeArray :=
  { hashAlgorithmPrimary := hashBySum
    hashAlgorithmSecondary := hashByLength
    hashProbe := probe
    size := size
    table := List.replicate size zeroSlot
    nEntries := 0
    insertCost := 0
    searchCost := 0
    deleteCost := 0 }

/-- The size-5 linear-probing table holding `"a"` at slot 2 and `"f"` at slot 3
(both keys have sum hash 2). -/
def tableAF : AssociativeArray :=
  { emptyTable HashProbe.linear 5 with
    table := [zeroSlot, zeroSlot, newSlot [97] 1 11, newSlot [102] 1 12, zeroSlot]
    nEntries := 2
    insertCost := 3 }

/-- The table `tableAF` after `aaDelete ("a")`: slot 2 is a tombstone. -/
def tableDF : AssociativeArray :=
  { tableAF with
    table := [zeroSlot, zeroSlot, ⟨some [97], 1, 11, HASH_DELETED⟩, newSlot [102] 1 12,
      zeroSlot]
    nEntries := 1
    deleteCost := 1 }

/-- The table `tableDF` after `aaInsert ("f", 22)`: the probe stops at the tombstone in
slot 2, so `"f"` is now in slot 2 and in slot 3. -/
def tableFF : AssociativeArray :=
  { tableDF with
    table := [zeroSlot, zeroSlot, newSlot [102] 1 22, newSlot [102] 1 12, zeroSlot]
    nEntries := 2
    insertCost := 4 }

/-- The table `tableFF` after `aaDelete ("f")`: slot 2 is a tombstone again, slot 3
still holds `"f"`. -/
def tableFD : AssociativeArray :=
  { tableFF with
    table := [zeroSlot, zeroSlot, ⟨some [102], 1, 22, HASH_DELETED⟩, newSlot [102] 1 12,
      zeroSlot]
    nEntries := 1
    deleteCost := 2 }

/-- The calls that lead from the empty size-5 table to `tableDF`:
insert `"a"`, insert `"f"`, delete `"a"`. -/
def opsToDF : List TableOp :=
  [TableOp.insert HASH_EMPTY [97] 1 11, TableOp.insert HASH_EMPTY [102] 1 12,
    TableOp.delete [97] 1]

/-- The size-5 linear-probing table after `aaInsert ("a", 11)`. -/
def tableA : AssociativeArray :=
  { emptyTable HashProbe.linear 5 with
    table := [zeroSlot, zeroSlot, newSlot [97] 1 11, zeroSlot, zeroSlot]
    nEntries := 1
    insertCost := 1 }

/-- A size-3 table with every slot in use, under the given probe: the keys `"a"`,
`"b"`, `"c"` sit at their sum hashes 1, 2 and 0. -/
def fullTable3 (probe : HashProbe) : AssociativeArray :=
  { emptyTable probe 3 with
    table := [newSlot [99] 1 13, newSlot [97] 1 11, newSlot [98] 1 12]
    nEntries := 3
    insertCost := 3 }

/-- The size-5 linear-probing table after `aaInsert ("a", va)` on the empty table. -/
def tableOfA (va : Nat) : AssociativeArray :=
  { emptyTable HashProbe.linear 5 with
    table := [zeroSlot, zeroSlot, newSlot [97] 1 va, zeroSlot, zeroSlot]
    nEntries := 1
    insertCost := 1 }

/-- The table `tableOfA va` after `aaInsert ("f", vf)`. -/
def tableOfAF (va vf : Nat) : AssociativeArray :=
  { tableOfA va with
    table := [zeroSlot, zeroSlot, newSlot [97] 1 va, newSlot [102] 1 vf, zeroSlot]
    nEntries := 2
    insertCost := 3 }

/-- The table `tableOfAF va vf` after `aaDelete ("a")`: slot 2 is a tombstone that
still carries the key `"a"`. -/
def tableOfDF (va vf : Nat) : AssociativeArray :=
  { tableOfAF va vf with
    table := [zeroSlot, zeroSlot, ⟨some [97], 1, va, HASH_DELETED⟩, newSlot [102] 1 vf,
      zeroSlot]
    nEntries := 1
    deleteCost := 1 }

/-- The iteration as the specification words it: go through the slots in array order,
call the user function on every slot in use, stop with failure (`-1`) at the first
negative result, report success (`1`) after a full pass. -/
def iterateSlots {U : Type} (userfunction : Option AAKeyType → Nat → Nat → U → Int × U) :
    List KeyDataPair → U → List KeyDataPair → Int × U × List KeyDataPair
  | [], userdata, calls => (1, userdata, calls)
  | s :: rest, userdata, calls =>
    if s.validity = HASH_USED then
      if (userfunction s.key s.keylen s.value userdata).1 < 0 then
        (-1, (userfunction s.key s.keylen s.value userdata).2, calls ++ [s])
      else iterateSlots userfunction rest (userfunction s.key s.keylen s.value userdata).2
        (calls ++ [s])
    else iterateSlots userfunction rest userdata calls

/-- The results the user function gives when it is called on each of the given slots
in turn, the user data handed from one call to the next. -/
def callResults {U : Type} (userfunction : Option AAKeyType → Nat → Nat → U → Int × U) :
    List KeyDataPair → U → List Int
  | [], _ => []
  | s :: rest, userdata =>
    (userfunction s.key s.keylen s.value userdata).1
      :: callResults userfunction rest (userfunction s.key s.keylen s.value userdata).2

/-- The slots in use, in array order. -/
def usedSlots (aarray : AssociativeArray) : List KeyDataPair :=
  aarray.table.filter (fun s => decide (s.validity = HASH_USED))

/-- A user function for the scenarios: it adds the value to the user data and returns
a negative result on the value 12. -/
def stopAt12 : Option AAKeyType → Nat → Nat → Nat → Int × Nat :=
  fun _ _ value userdata => (if value = 12 then -1 else 1, userdata + value)

/-- The name begins with the three given characters (what `strncmp (name, .., 3) == 0`
tests). -/
def BeginsWith (name : String) (c1 c2 c3 : Char) : Prop :=
  ∃ rest, name.toList = c1 :: c2 :: c3 :: rest

/-- What a probe may return: `-1`, or an index inside the table whose slot ends the
search: in use with a key that matches the key sought, or empty, or (only when
`invalidEndsSearch` is set) a tombstone. -/
def ProbeResultOK (aarray : AssociativeArray) (key : AAKeyType) (keylen : Nat)
    (invalidEndsSearch : Bool) (r : HashIndex) : Prop :=
  r = -1 ∨ (0 ≤ r ∧ r < (aarray.size : Int) ∧
    (((slotAt aarray r.toNat).validity = HASH_USED ∧
        slotKeyMatches (slotAt aarray r.toNat) key keylen = true) ∨
      (slotAt aarray r.toNat).validity = HASH_EMPTY ∨
      (invalidEndsSearch = true ∧ (slotAt aarray r.toNat).validity = HASH_DELETED)))

/-- A size-5 table with double hashing (sum hash, length hash as secondary hash) after
`aaInsert` of the one-byte key `[5]` with value 7: the key sits at slot 0. -/
def tableStep0 : AssociativeArray :=
  { emptyTable HashProbe.doubleHash 5 with
    table := [newSlot [5] 1 7, zeroSlot, zeroSlot, zeroSlot, zeroSlot]
    nEntries := 1
    insertCost := 1 }

/-- The size-5 table with quadratic probing (sum hash) after the inserts of `"a"`,
`"b"` and `"e"`, whose sum hashes are 2, 3 and 1: slots 1, 2 and 3 are in use, slots 0
and 4 are empty. -/
def tableQuad : AssociativeArray :=
  { emptyTable HashProbe.quadratic 5 with
    table := [zeroSlot, newSlot [101] 1 13, newSlot [97] 1 11, newSlot [98] 1 12, zeroSlot]
    nEntries := 3
    insertCost := 3 }

/-- The three inserts that build `tableQuad`. -/
def opsToQuad : List TableOp :=
  [TableOp.insert HASH_EMPTY [97] 1 11, TableOp.insert HASH_EMPTY [98] 1 12,
    TableOp.insert HASH_EMPTY [101] 1 13]

/-- The value of `finalIndex` in `aaInsert`: the index at which it evaluates
`aarray->table[finalIndex].validity` right after the probe has returned. -/
def aaInsertReadIndex (fuel : Nat) (aarray : AssociativeArray) (key : AAKeyType)
    (keylen : Nat) : Option HashIndex :=
  (callProbe fuel aarray key keylen (aarray.hashAlgorithmPrimary key keylen aarray.size)
    true aarray.insertCost).map Prod.fst

/-- The index lies inside the slot array. -/
def InsideTable (aarray : AssociativeArray) (i : HashIndex) : Prop :=
  0 ≤ i ∧ i < (aarray.size : Int)

/-- The three inserts that fill the size-3 table: `"a"`, `"b"`, `"c"`. -/
def opsToFull3 : List TableOp :=
  [TableOp.insert HASH_EMPTY [97] 1 11, TableOp.insert HASH_EMPTY [98] 1 12,
    TableOp.insert HASH_EMPTY [99] 1 13]

/-- No slot of the table ends a probe of the key: no slot is empty, no slot in use holds
the key and, when `invalidEndsSearch` is set, no slot is a tombstone. -/
def NothingEndsSearch (aarray : AssociativeArray) (key : AAKeyType) (keylen : Nat)
    (invalidEndsSearch : Bool) : Prop :=
  ∀ i, i < aarray.size →
    (slotAt aarray i).validity ≠ HASH_EMPTY ∧
    slotHasKey (slotAt aarray i) key keylen = false ∧
    (invalidEndsSearch = true → (slotAt aarray i).validity ≠ HASH_DELETED)

/-- Every slot is the one examined in exactly one of the iterations `0 .. size - 1` of
the probe (the loop variable `j` of iteration `m` is the second component of the
state after `m` updates). -/
def ExaminedOnce (probe : HashProbe) (size step2 startIndex : Nat) : Prop :=
  ∀ i, i < size →
    ∃! m, m < size ∧ ((probeAdvance probe size step2 startIndex)^[m] (0, startIndex)).2 = i

end AALib

namespace AALib

open Validity

/-! ## The probes as walks along the probe sequence -/

theorem linearProbeLoop_eq_walk (a : AssociativeArray) (key : AAKeyType) (keylen index : Nat)
    (flag : Bool) (step2 : Nat) (fuel : Nat) : ∀ (s j cost : Nat),
    linearProbeLoop a key keylen index flag fuel j cost
      = walk (fun i => stopsAt (slotAt a i) key keylen flag)
          (probeAdvance HashProbe.linear a.size step2 index)
          (probeFull HashProbe.linear a.size index) fuel (s, j) cost := by
  induction fuel with
  | zero => intro s j cost; rfl
  | succ fuel ih =>
    intro s j cost
    simp only [linearProbeLoop, walk, stopsAt, probeAdvance, probeFull]
    rw [ih s]
    cases h1 : slotHasKey (slotAt a j) key keylen <;>
      cases h2 : (slotAt a j).validity <;> cases flag <;>
      simp [probeAdvance, probeFull, stopsAt]

theorem quadraticProbeLoop_eq_walk (a : AssociativeArray) (key : AAKeyType)
    (keylen index : Nat) (flag : Bool) (step2 : Nat) (fuel : Nat) : ∀ (s j cost : Nat),
    quadraticProbeLoop a key keylen index flag fuel s j cost
      = walk (fun i => stopsAt (slotAt a i) key keylen flag)
          (probeAdvance HashProbe.quadratic a.size step2 index)
          (probeFull HashProbe.quadratic a.size index) fuel (s, j) cost := by
  induction fuel with
  | zero => intro s j cost; rfl
  | succ fuel ih =>
    intro s j cost
    simp only [quadraticProbeLoop, walk, stopsAt, probeAdvance, probeFull]
    rw [ih]
    cases h1 : slotHasKey (slotAt a j) key keylen <;>
      cases h2 : (slotAt a j).validity <;> cases flag <;>
      simp [probeAdvance, probeFull, stopsAt]

theorem doubleHashProbeLoop_eq_walk (a : AssociativeArray) (key : AAKeyType)
    (keylen index : Nat) (flag : Bool) (step2 : Nat) (fuel : Nat) : ∀ (s j cost : Nat),
    doubleHashProbeLoop a key keylen index flag step2 fuel j cost
      = walk (fun i => stopsAt (slotAt a i) key keylen flag)
          (probeAdvance HashProbe.doubleHash a.size step2 index)
          (probeFull HashProbe.doubleHash a.size index) fuel (s, j) cost := by
  induction fuel with
  | zero => intro s j cost; rfl
  | succ fuel ih =>
    intro s j cost
    simp only [doubleHashProbeLoop, walk, stopsAt, probeAdvance, probeFull]
    rw [ih s]
    cases h1 : slotHasKey (slotAt a j) key keylen <;>
      cases h2 : (slotAt a j).validity <;> cases flag <;>
      simp [probeAdvance, probeFull, stopsAt]

theorem walkEnds_succ (stops : Nat → Bool) (adv : Nat × Nat → Nat × Nat)
    (full : Nat × Nat → Bool) (st : Nat × Nat) (n : Nat) (r : HashIndex)
    (h1 : stops st.2 = false) (h2 : full (adv st) = false) :
    WalkEnds stops adv full st (n + 1) r ↔ WalkEnds stops adv full (adv st) n r := by
  unfold WalkEnds
  simp only [Function.iterate_succ_apply]
  constructor
  · rintro ⟨ha, hb⟩
    refine ⟨fun m hm => ?_, hb⟩
    have := ha (m + 1) (by omega)
    simpa only [Function.iterate_succ_apply] using this
  · rintro ⟨ha, hb⟩
    refine ⟨fun m hm => ?_, hb⟩
    cases m with
    | zero => exact ⟨h1, h2⟩
    | succ m =>
      have := ha m (by omega)
      simpa only [Function.iterate_succ_apply] using this

theorem walkEnds_zero_of_stops (stops : Nat → Bool) (adv : Nat × Nat → Nat × Nat)
    (full : Nat × Nat → Bool) (st : Nat × Nat) (n : Nat) (r : HashIndex)
    (h1 : stops st.2 = true) (h : WalkEnds stops adv full st n r) :
    n = 0 ∧ r = (st.2 : Int) := by
  cases n with
  | zero =>
    rcases h.2 with ⟨_, hr⟩ | ⟨hs, _⟩
    · exact ⟨rfl, hr⟩
    · simp only [Function.iterate_zero, id_eq] at hs; rw [h1] at hs; cases hs
  | succ n =>
    have := (h.1 0 (by omega)).1
    simp only [Function.iterate_zero, id_eq] at this; rw [h1] at this; cases this

theorem walkEnds_zero_of_full (stops : Nat → Bool) (adv : Nat × Nat → Nat × Nat)
    (full : Nat × Nat → Bool) (st : Nat × Nat) (n : Nat) (r : HashIndex)
    (h1 : stops st.2 = false) (h2 : full (adv st) = true)
    (h : WalkEnds stops adv full st n r) : n = 0 ∧ r = -1 := by
  cases n with
  | zero =>
    rcases h.2 with ⟨hs, _⟩ | ⟨_, _, hr⟩
    · simp only [Function.iterate_zero, id_eq] at hs; rw [h1] at hs; cases hs
    · exact ⟨rfl, hr⟩
  | succ n =>
    have := (h.1 0 (by omega)).2
    simp only [Function.iterate_succ_apply, Function.iterate_zero, id_eq] at this
    rw [h2] at this; cases this

/-- A walk returns `(r, c)` exactly when it ends in some iteration `n` below the fuel
with result `r`, having added `n + 1` to the cost. -/
theorem walk_eq_some_iff (stops : Nat → Bool) (adv : Nat × Nat → Nat × Nat)
    (full : Nat × Nat → Bool) (fuel : Nat) : ∀ (st : Nat × Nat) (cost : Nat) (r : HashIndex)
    (c : Nat), walk stops adv full fuel st cost = some (r, c) ↔
      ∃ n, n < fuel ∧ c = cost + n + 1 ∧ WalkEnds stops adv full st n r := by
  induction fuel with
  | zero =>
    intro st cost r c
    simp [walk]
  | succ fuel ih =>
    intro st cost r c
    rw [walk]
    by_cases h1 : stops st.2 = true
    · rw [if_pos h1]
      constructor
      · intro h
        simp only [Option.some.injEq, Prod.mk.injEq] at h
        refine ⟨0, by omega, by omega, fun m hm => by omega, Or.inl ⟨h1, h.1.symm⟩⟩
      · rintro ⟨n, _, hc, hn⟩
        obtain ⟨rfl, rfl⟩ := walkEnds_zero_of_stops stops adv full st n r h1 hn
        simp [hc]
    · have h1f : stops st.2 = false := by simpa using h1
      rw [if_neg h1]
      by_cases h2 : full (adv st) = true
      · rw [if_pos h2]
        constructor
        · intro h
          simp only [Option.some.injEq, Prod.mk.injEq] at h
          refine ⟨0, by omega, by omega, fun m hm => by omega, Or.inr ⟨h1f, h2, h.1.symm⟩⟩
        · rintro ⟨n, _, hc, hn⟩
          obtain ⟨rfl, rfl⟩ := walkEnds_zero_of_full stops adv full st n r h1f h2 hn
          simp [hc]
      · have h2f : full (adv st) = false := by simpa using h2
        rw [if_neg h2, ih]
        constructor
        · rintro ⟨n, hn, hc, hw⟩
          exact ⟨n + 1, by omega, by omega,
            (walkEnds_succ stops adv full st n r h1f h2f).2 hw⟩
        · rintro ⟨n, hn, hc, hw⟩
          cases n with
          | zero =>
            rcases hw.2 with ⟨hs, _⟩ | ⟨_, hf, _⟩
            · simp only [Function.iterate_zero, id_eq] at hs; rw [h1f] at hs; cases hs
            · simp only [Function.iterate_succ_apply, Function.iterate_zero, id_eq] at hf
              rw [h2f] at hf; cases hf
          | succ n =>
            exact ⟨n, by omega, by omega,
              (walkEnds_succ stops adv full st n r h1f h2f).1 hw⟩

/-- A walk with enough fuel to reach an iteration that reports full returns. -/
theorem walk_isSome (stops : Nat → Bool) (adv : Nat × Nat → Nat × Nat)
    (full : Nat × Nat → Bool) (fuel : Nat) : ∀ (st : Nat × Nat) (cost : Nat),
    (∃ n, n < fuel ∧ full (adv^[n + 1] st) = true) →
    ∃ r c, walk stops adv full fuel st cost = some (r, c) := by
  induction fuel with
  | zero => rintro st cost ⟨n, hn, _⟩; omega
  | succ fuel ih =>
    rintro st cost ⟨n, hn, hf⟩
    rw [walk]
    by_cases h1 : stops st.2 = true
    · rw [if_pos h1]; exact ⟨_, _, rfl⟩
    · rw [if_neg h1]
      by_cases h2 : full (adv st) = true
      · rw [if_pos h2]; exact ⟨_, _, rfl⟩
      · rw [if_neg h2]
        cases n with
        | zero =>
          simp only [Function.iterate_succ_apply, Function.iterate_zero, id_eq] at hf
          exact absurd hf h2
        | succ n =>
          apply ih
          refine ⟨n, by omega, ?_⟩
          simpa only [Function.iterate_succ_apply] using hf

/-- Every probe call is a walk along the probe sequence of the key. -/
theorem callProbe_eq_walk (fuel : Nat) (a : AssociativeArray) (key : AAKeyType)
    (keylen index : Nat) (flag : Bool) (cost : Nat) :
    callProbe fuel a key keylen index flag cost
      = walk (fun i => stopsAt (slotAt a i) key keylen flag)
          (probeAdvance a.hashProbe a.size (a.hashAlgorithmSecondary key keylen a.size) index)
          (probeFull a.hashProbe a.size index) fuel (0, index) cost := by
  unfold callProbe
  cases h : a.hashProbe
  · exact linearProbeLoop_eq_walk a key keylen index flag _ fuel 0 index cost
  · exact quadraticProbeLoop_eq_walk a key keylen index flag _ fuel 0 index cost
  · exact doubleHashProbeLoop_eq_walk a key keylen index flag _ fuel 0 index cost

/-- A probe started at the primary hash returns `(r, c)` exactly when it ends in some
iteration `n` below the fuel with result `r`; it has then added `n + 1` to the cost. -/
theorem callProbe_eq_some_iff (fuel : Nat) (a : AssociativeArray) (key : AAKeyType)
    (keylen : Nat) (flag : Bool) (cost : Nat) (r : HashIndex) (c : Nat) :
    callProbe fuel a key keylen (a.hashAlgorithmPrimary key keylen a.size) flag cost
        = some (r, c) ↔
      ∃ n, n < fuel ∧ c = cost + n + 1 ∧ ProbeEnds a key keylen flag n r := by
  rw [callProbe_eq_walk, walk_eq_some_iff]
  rfl

/-! ## Geometry of the three probe sequences -/

theorem probeState_linear (size step2 start : Nat) (h : start < size) (n : Nat) :
    (probeAdvance HashProbe.linear size step2 start)^[n] (0, start)
      = (0, (start + n) % size) := by
  induction n with
  | zero => simp [Nat.mod_eq_of_lt h]
  | succ n ih =>
    rw [Function.iterate_succ_apply', ih]
    simp only [probeAdvance, Prod.mk.injEq, true_and]
    rw [Nat.mod_add_mod, Nat.add_assoc]

theorem probeState_doubleHash (size step2 start : Nat) (h : start < size) (n : Nat) :
    (probeAdvance HashProbe.doubleHash size step2 start)^[n] (0, start)
      = (0, (start + n * step2) % size) := by
  induction n with
  | zero => simp [Nat.mod_eq_of_lt h]
  | succ n ih =>
    rw [Function.iterate_succ_apply', ih]
    simp only [probeAdvance, Prod.mk.injEq, true_and]
    rw [Nat.mod_add_mod, Nat.add_assoc, Nat.succ_mul]

theorem probeState_quadratic_fst (size step2 start : Nat) (n : Nat) :
    ((probeAdvance HashProbe.quadratic size step2 start)^[n] (0, start)).1 = n := by
  induction n with
  | zero => simp
  | succ n ih =>
    rw [Function.iterate_succ_apply']
    simp only [probeAdvance, ih]

/-- Every index of a probe sequence is inside the table. -/
theorem probeSeq_lt (a : AssociativeArray) (hwf : WellFormed a) (key : AAKeyType)
    (keylen n : Nat) : probeSeq a key keylen n < a.size := by
  obtain ⟨hpos, _, hrange, _⟩ := hwf
  unfold probeSeq probeState
  cases n with
  | zero => simpa using hrange key keylen
  | succ n =>
    rw [Function.iterate_succ_apply']
    cases a.hashProbe <;> simp only [probeAdvance] <;> exact Nat.mod_lt _ hpos

/-- Iteration `size - 1` of every probe reports the table full (if none did before). -/
theorem probeFullAt_last (a : AssociativeArray) (hwf : WellFormed a) (key : AAKeyType)
    (keylen : Nat) : probeFullAt a key keylen (a.size - 1) = true := by
  obtain ⟨hpos, _, hrange, _⟩ := hwf
  have hs : a.size - 1 + 1 = a.size := by omega
  have hr := hrange key keylen
  unfold probeFullAt probeState
  rw [hs]
  cases a.hashProbe
  · rw [probeState_linear _ _ _ hr]
    simp [probeFull, Nat.mod_eq_of_lt hr]
  · simp only [probeFull, probeState_quadratic_fst, decide_True]
  · rw [probeState_doubleHash _ _ _ hr]
    simp [probeFull, Nat.mod_eq_of_lt hr]

/-- Termination: with at least `size` units of fuel every probe started at the
primary hash returns. -/
theorem callProbe_total (fuel : Nat) (a : AssociativeArray) (hwf : WellFormed a)
    (hfuel : a.size ≤ fuel) (key : AAKeyType) (keylen : Nat) (flag : Bool) (cost : Nat) :
    ∃ r c, callProbe fuel a key keylen (a.hashAlgorithmPrimary key keylen a.size) flag cost
      = some (r, c) := by
  rw [callProbe_eq_walk]
  apply walk_isSome
  refine ⟨a.size - 1, ?_, probeFullAt_last a hwf key keylen⟩
  have := hwf.1
  omega

/-! ## Slots, tables and the probe sequence under updates -/

theorem slotAt_of_set (a b : AssociativeArray) (j : Nat) (s : KeyDataPair)
    (h : b.table = a.table.set j s) (hj : j < a.table.length) (i : Nat) :
    slotAt b i = if i = j then s else slotAt a i := by
  unfold slotAt
  rw [h, List.getD_eq_getElem?_getD, List.getD_eq_getElem?_getD, List.getElem?_set]
  by_cases hij : i = j
  · subst hij; simp [hj]
  · have : ¬ j = i := fun h => hij h.symm
    simp [hij, this]

theorem probeState_congr (a b : AssociativeArray) (hp : b.hashProbe = a.hashProbe)
    (hs : b.size = a.size) (h1 : b.hashAlgorithmPrimary = a.hashAlgorithmPrimary)
    (h2 : b.hashAlgorithmSecondary = a.hashAlgorithmSecondary) (key : AAKeyType)
    (keylen n : Nat) : probeState b key keylen n = probeState a key keylen n := by
  unfold probeState; rw [hp, hs, h1, h2]

theorem probeSeq_congr (a b : AssociativeArray) (hp : b.hashProbe = a.hashProbe)
    (hs : b.size = a.size) (h1 : b.hashAlgorithmPrimary = a.hashAlgorithmPrimary)
    (h2 : b.hashAlgorithmSecondary = a.hashAlgorithmSecondary) (key : AAKeyType)
    (keylen n : Nat) : probeSeq b key keylen n = probeSeq a key keylen n := by
  unfold probeSeq; rw [probeState_congr a b hp hs h1 h2]

theorem probeFullAt_congr (a b : AssociativeArray) (hp : b.hashProbe = a.hashProbe)
    (hs : b.size = a.size) (h1 : b.hashAlgorithmPrimary = a.hashAlgorithmPrimary)
    (h2 : b.hashAlgorithmSecondary = a.hashAlgorithmSecondary) (key : AAKeyType)
    (keylen n : Nat) : probeFullAt b key keylen n = probeFullAt a key keylen n := by
  unfold probeFullAt; rw [probeState_congr a b hp hs h1 h2, hp, hs, h1]

theorem ProbeEnds_congr (a b : AssociativeArray) (hsh : SameShape a b) (key : AAKeyType)
    (keylen : Nat) (flag flag2 : Bool) (n : Nat) (r : HashIndex)
    (hst : ∀ m, m ≤ n →
      stopsAt (slotAt b (probeSeq a key keylen m)) key keylen flag2
        = stopsAt (slotAt a (probeSeq a key keylen m)) key keylen flag)
    (h : ProbeEnds a key keylen flag n r) : ProbeEnds b key keylen flag2 n r := by
  obtain ⟨hp, hs, h1, h2⟩ := hsh
  unfold ProbeEnds at h ⊢
  simp only [probeSeq_congr a b hp hs h1 h2, probeFullAt_congr a b hp hs h1 h2]
  refine ⟨fun m hm => ?_, ?_⟩
  · rw [hst m (by omega)]; exact h.1 m hm
  · rw [hst n (by omega)]; exact h.2

/-! ## What stops a probe -/

theorem slotHasKey_newSlot (key : AAKeyType) (keylen value : Nat) :
    slotHasKey (newSlot key keylen value) key keylen = true := by
  simp [slotHasKey, slotKeyMatches, newSlot, doKeysMatch, List.take_take]

theorem stopsAt_of_slotHasKey (s : KeyDataPair) (key : AAKeyType) (keylen : Nat) (flag : Bool)
    (h : slotHasKey s key keylen = true) : stopsAt s key keylen flag = true := by
  simp [stopsAt, h]

theorem slotHasKey_used (s : KeyDataPair) (key : AAKeyType) (keylen : Nat)
    (h : slotHasKey s key keylen = true) : s.validity = HASH_USED := by
  simp only [slotHasKey, Bool.and_eq_true, decide_eq_true_eq] at h
  exact h.1

theorem stopsAt_true_false (s : KeyDataPair) (key : AAKeyType) (keylen : Nat)
    (h : stopsAt s key keylen true = false) :
    s.validity = HASH_USED ∧ slotHasKey s key keylen = false := by
  unfold stopsAt at h
  cases hv : s.validity <;> simp_all

theorem stopsAt_false_of_true (s : KeyDataPair) (key : AAKeyType) (keylen : Nat)
    (h : stopsAt s key keylen true = false) : stopsAt s key keylen false = false := by
  unfold stopsAt at h ⊢
  cases hv : s.validity <;> simp_all

theorem stopsAt_not_used (s : KeyDataPair) (key : AAKeyType) (keylen : Nat) (flag : Bool)
    (h : stopsAt s key keylen flag = true) (hu : s.validity ≠ HASH_USED) :
    s.validity = HASH_EMPTY ∨ (flag = true ∧ s.validity = HASH_DELETED) := by
  unfold stopsAt slotHasKey at h
  cases hv : s.validity <;> simp_all

theorem deleted_of_stopsAt (s : KeyDataPair) (key : AAKeyType) (keylen : Nat)
    (h1 : stopsAt s key keylen true = true) (h2 : stopsAt s key keylen false = false) :
    s.validity = HASH_DELETED := by
  unfold stopsAt at h1 h2
  cases hv : s.validity <;> simp_all

/-! ## The operations, case by case -/

/-- How `aaInsert` comes to its result: the probe ends in some iteration `n` with
`idx`; a non-negative `idx` on a slot that is not in use is written and returned,
everything else returns `-1` and changes only `insertCost`. -/
theorem aaInsert_cases (fuel : Nat) (stray : Validity) (a : AssociativeArray)
    (hwf : WellFormed a) (key : AAKeyType) (keylen value : Nat) (r : Int)
    (b : AssociativeArray)
    (h : aaInsert fuel stray a key keylen value = some (r, b)) :
    ∃ n idx, n < fuel ∧ ProbeEnds a key keylen true n idx ∧
      ((r = -1 ∧ b = { a with insertCost := a.insertCost + n + 1 } ∧
          (idx = -1 ∨ (slotAt a idx.toNat).validity = HASH_USED)) ∨
       (r = (probeSeq a key keylen n : Int) ∧ idx = r ∧
          (slotAt a (probeSeq a key keylen n)).validity ≠ HASH_USED ∧
          stopsAt (slotAt a (probeSeq a key keylen n)) key keylen true = true ∧
          b = { a with
                insertCost := a.insertCost + n + 1
                table := a.table.set (probeSeq a key keylen n) (newSlot key keylen value)
                nEntries := a.nEntries + 1 })) := by
  unfold aaInsert at h
  simp only at h
  cases hp : callProbe fuel a key keylen (a.hashAlgorithmPrimary key keylen a.size) true
      a.insertCost with
  | none => rw [hp] at h; cases h
  | some res =>
    obtain ⟨idx, c⟩ := res
    rw [hp] at h
    simp only at h
    obtain ⟨n, hn, hc, hends⟩ := (callProbe_eq_some_iff fuel a key keylen true _ idx c).1 hp
    refine ⟨n, idx, hn, hends, ?_⟩
    have hlt := probeSeq_lt a hwf key keylen n
    rcases hends.2 with ⟨hst, hidx⟩ | ⟨_, _, hidx⟩
    · -- the probe stopped at a slot
      have hv : validityAt { a with insertCost := c } stray idx
          = (slotAt a (probeSeq a key keylen n)).validity := by
        unfold validityAt
        subst hidx
        have h1 : (0 : Int) ≤ (probeSeq a key keylen n : Int) := Int.ofNat_nonneg _
        have h2 : ((probeSeq a key keylen n : Nat) : Int) < (a.size : Int) := by
          exact_mod_cast hlt
        simp only [h1, h2, and_self, if_true, Int.toNat_ofNat]
        rfl
      rw [hv] at h
      by_cases hu : (slotAt a (probeSeq a key keylen n)).validity = HASH_USED
      · rw [if_pos hu] at h
        simp only [Option.some.injEq, Prod.mk.injEq] at h
        left
        refine ⟨h.1.symm, ?_, Or.inr ?_⟩
        · rw [← h.2, hc]
        · subst hidx; simpa using hu
      · rw [if_neg hu] at h
        have h1 : (0 : Int) ≤ idx := by subst hidx; exact Int.ofNat_nonneg _
        rw [if_pos h1] at h
        simp only [Option.some.injEq, Prod.mk.injEq] at h
        right
        subst hidx
        refine ⟨h.1.symm, h.1, hu, hst, ?_⟩
        rw [← h.2, hc]
        simp [newSlot]
    · -- the probe reported the table full
      subst hidx
      left
      by_cases hu : validityAt { a with insertCost := c } stray (-1) = HASH_USED
      · rw [if_pos hu] at h
        simp only [Option.some.injEq, Prod.mk.injEq] at h
        exact ⟨h.1.symm, by rw [← h.2, hc], Or.inl rfl⟩
      · rw [if_neg hu] at h
        simp only [show ¬ ((0 : Int) ≤ -1) by decide, if_false, Option.some.injEq,
          Prod.mk.injEq] at h
        exact ⟨h.1.symm, by rw [← h.2, hc], Or.inl rfl⟩

/-- The result of `aaLookup` in terms of the iteration in which its probe ends. -/
theorem aaLookup_eq (fuel : Nat) (a : AssociativeArray) (key : AAKeyType) (keylen : Nat)
    (n : Nat) (idx : HashIndex) (hn : n < fuel) (h : ProbeEnds a key keylen false n idx) :
    aaLookup fuel a key keylen
      = some (lookupValue a idx key keylen, { a with searchCost := a.searchCost + n + 1 }) := by
  have hp := (callProbe_eq_some_iff fuel a key keylen false a.searchCost idx
    (a.searchCost + n + 1)).2 ⟨n, hn, rfl, h⟩
  unfold aaLookup
  simp only [hp, lookupValue]
  have hs : ∀ i, slotAt { a with searchCost := a.searchCost + n + 1 } i = slotAt a i :=
    fun i => rfl
  simp only [hs]
  split_ifs <;> rfl

/-- Termination of `aaLookup`, with the iteration in which the probe ended. -/
theorem aaLookup_total (fuel : Nat) (a : AssociativeArray) (hwf : WellFormed a)
    (hfuel : a.size ≤ fuel) (key : AAKeyType) (keylen : Nat) :
    ∃ n idx, n < fuel ∧ ProbeEnds a key keylen false n idx ∧
      aaLookup fuel a key keylen
        = some (lookupValue a idx key keylen,
            { a with searchCost := a.searchCost + n + 1 }) := by
  obtain ⟨r, c, hrc⟩ := callProbe_total fuel a hwf hfuel key keylen false a.searchCost
  obtain ⟨n, hn, _, hends⟩ := (callProbe_eq_some_iff fuel a key keylen false _ r c).1 hrc
  exact ⟨n, r, hn, hends, aaLookup_eq fuel a key keylen n r hn hends⟩

/-! ## The hash functions -/

theorem foldl_sum_mod (size : Nat) (l : List Nat) : ∀ acc : Nat, acc % size = acc →
    l.foldl (fun sum b => (sum + b) % size) acc = (acc + l.sum) % size := by
  induction l with
  | nil => intro acc h; simp [h]
  | cons b l ih =>
    intro acc _
    rw [List.foldl_cons, ih _ (Nat.mod_mod _ _), List.sum_cons, Nat.mod_add_mod, Nat.add_assoc]

theorem hashBySum_eq (key : AAKeyType) (keyLength size : Nat) :
    hashBySum key keyLength size = (key.take keyLength).sum % size := by
  unfold hashBySum
  rw [foldl_sum_mod size _ 0 (Nat.zero_mod _), Nat.zero_add]

theorem hashContract_of_sum_length (a : AssociativeArray) (hpos : 0 < a.size)
    (h1 : a.hashAlgorithmPrimary = hashBySum) (h2 : a.hashAlgorithmSecondary = hashByLength) :
    HashContract a := by
  refine ⟨fun key keylen => ?_, fun key key2 keylen h => ?_, fun key key2 keylen _ => ?_⟩
  · rw [h1, hashBySum_eq]; exact Nat.mod_lt _ hpos
  · rw [h1, hashBySum_eq, hashBySum_eq, h]
  · rw [h2]; rfl

theorem wellFormed_emptyTable (probe : HashProbe) (size : Nat) (hpos : 0 < size) :
    WellFormed (emptyTable probe size) :=
  ⟨hpos, List.length_replicate _ _, hashContract_of_sum_length _ hpos rfl rfl⟩

theorem wellFormed_fullTable3 (probe : HashProbe) : WellFormed (fullTable3 probe) :=
  ⟨Nat.succ_pos 2, rfl, hashContract_of_sum_length _ (Nat.succ_pos 2) rfl rfl⟩

theorem wellFormed_tableAF : WellFormed tableAF :=
  ⟨by decide, rfl, hashContract_of_sum_length _ (by decide) rfl rfl⟩

/-! ## C1: a successful insert is found by the next lookup -/

/-- C1. On a well-formed table (positive size, any of the three probes), if
`aaInsert (key, value)` returns an index `p ≥ 0`, then slot `p` of the table is in use
and holds a copy of the key bytes, the key length and `value`, and `aaLookup (key)`
called next (with fuel for `size` iterations) returns `value`. -/
theorem C1_insert_then_lookup (fuel fuel2 : Nat) (stray : Validity) (a : AssociativeArray)
    (hwf : WellFormed a) (key : AAKeyType) (keylen value : Nat) (p : Int)
    (b : AssociativeArray) (hins : aaInsert fuel stray a key keylen value = some (p, b))
    (hp : 0 ≤ p) (hfuel2 : a.size ≤ fuel2) :
    p.toNat < b.table.length ∧
    slotAt b p.toNat = ⟨some (key.take keylen), keylen, value, HASH_USED⟩ ∧
    ∃ c, aaLookup fuel2 b key keylen = some (value, c) := by
  obtain ⟨n, idx, hn, hends, hcase⟩ := aaInsert_cases fuel stray a hwf key keylen value p b hins
  rcases hcase with ⟨hr, _, _⟩ | ⟨hr, hidx, hnu, hst, hb⟩
  · omega
  · have hlt : probeSeq a key keylen n < a.table.length := by
      rw [hwf.2.1]; exact probeSeq_lt a hwf key keylen n
    have htab : b.table = a.table.set (probeSeq a key keylen n) (newSlot key keylen value) := by
      rw [hb]
    have hslot := slotAt_of_set a b _ _ htab hlt
    have hshape : SameShape a b := by rw [hb]; exact ⟨rfl, rfl, rfl, rfl⟩
    have hpn : p.toNat = probeSeq a key keylen n := by rw [hr]; exact Int.toNat_ofNat _
    have hnew : slotAt b (probeSeq a key keylen n) = newSlot key keylen value := by
      rw [hslot]; simp
    refine ⟨?_, ?_, ?_⟩
    · rw [hpn, htab, List.length_set]; exact hlt
    · rw [hpn, hnew]; rfl
    · -- the lookup probe walks the same slots and stops at the new one
      have hends2 : ProbeEnds b key keylen false n idx := by
        apply ProbeEnds_congr a b hshape key keylen true false n idx _ hends
        intro m hm
        rcases Nat.lt_or_eq_of_le hm with hlt2 | heq
        · have hf := (hends.1 m hlt2).1
          have hne : probeSeq a key keylen m ≠ probeSeq a key keylen n := by
            intro he; rw [he, hst] at hf; cases hf
          rw [hslot, if_neg hne, hf]
          exact stopsAt_false_of_true _ _ _ hf
        · rw [heq, hnew, hst]
          exact stopsAt_of_slotHasKey _ _ _ _ (slotHasKey_newSlot key keylen value)
      have hn2 : n < fuel2 := by
        have := probeFullAt_last a hwf key keylen
        by_contra hcon
        have hlast := (hends.1 (a.size - 1) (by have := hwf.1; omega)).2
        rw [this] at hlast; cases hlast
      have hl := aaLookup_eq fuel2 b key keylen n idx hn2 hends2
      have hv : lookupValue b idx key keylen = value := by
        unfold lookupValue
        rw [hidx, hpn, hnew]
        simp [newSlot, slotKeyMatches, doKeysMatch, List.take_take, hp]
      rw [hl, hv]
      exact ⟨_, rfl⟩

/-- Witness of C1: inserting `"a"` with value 11 into the empty size-5 table returns
slot 2, and the lookup that follows returns 11. -/
theorem C1_insert_then_lookup_witness :
    WellFormed (emptyTable HashProbe.linear 5) ∧
    aaInsert 5 HASH_EMPTY (emptyTable HashProbe.linear 5) [97] 1 11 = some (2, tableA) ∧
    ((2 : Int).toNat < tableA.table.length ∧
     slotAt tableA (2 : Int).toNat = ⟨some ([97].take 1), 1, 11, HASH_USED⟩ ∧
     ∃ c, aaLookup 5 tableA [97] 1 = some (11, c)) :=
  ⟨wellFormed_emptyTable _ 5 (by decide), rfl,
    C1_insert_then_lookup 5 5 HASH_EMPTY (emptyTable HashProbe.linear 5)
      (wellFormed_emptyTable _ 5 (by decide)) [97] 1 11 2 tableA rfl (by decide)
      (Nat.le_refl 5)⟩

/-! ## C10: the sum hash -/

theorem aaInsert_of_probe_full (fuel : Nat) (stray : Validity) (a : AssociativeArray)
    (key : AAKeyType) (keylen value c : Nat)
    (h : callProbe fuel a key keylen (a.hashAlgorithmPrimary key keylen a.size) true
      a.insertCost = some (-1, c)) :
    aaInsert fuel stray a key keylen value = some (-1, { a with insertCost := c }) := by
  unfold aaInsert
  simp only [h]
  by_cases hu : validityAt { a with insertCost := c } stray (-1) = HASH_USED
  · rw [if_pos hu]
  · rw [if_neg hu]
    simp only [show ¬ ((0 : Int) ≤ -1) by decide, if_false]

/-- C9. In a well-formed table (any of the three probes) where every slot is in use
and none holds the key, `aaInsert` returns `-1` and leaves every slot and `nEntries`
as they were (whatever the stray read at index `-1` returns). -/
theorem C9_insert_into_full (fuel : Nat) (stray : Validity) (a : AssociativeArray)
    (hwf : WellFormed a) (hfuel : a.size ≤ fuel) (key : AAKeyType) (keylen value : Nat)
    (hused : ∀ i, i < a.size → (slotAt a i).validity = HASH_USED)
    (habsent : ∀ i, i < a.size → slotKeyMatches (slotAt a i) key keylen = false) :
    ∃ b, aaInsert fuel stray a key keylen value = some (-1, b) ∧
      b.table = a.table ∧ b.nEntries = a.nEntries ∧ b.size = a.size := by
  obtain ⟨r, c, hrc⟩ := callProbe_total fuel a hwf hfuel key keylen true a.insertCost
  obtain ⟨n, _, _, hends⟩ := (callProbe_eq_some_iff fuel a key keylen true _ r c).1 hrc
  have hr : r = -1 := by
    rcases hends.2 with ⟨hst, _⟩ | ⟨_, _, hr⟩
    · have hlt := probeSeq_lt a hwf key keylen n
      have h1 := hused _ hlt
      have h2 := habsent _ hlt
      simp [stopsAt, slotHasKey, h1, h2] at hst
    · exact hr
  subst hr
  exact ⟨_, aaInsert_of_probe_full fuel stray a key keylen value c hrc, rfl, rfl, rfl⟩

/-- Witness of C9: the fourth insert, of `"d"`, into the full size-3 table under
quadratic probing. -/
theorem C9_insert_into_full_witness :
    WellFormed (fullTable3 HashProbe.quadratic) ∧
    (∀ i, i < (fullTable3 HashProbe.quadratic).size →
      (slotAt (fullTable3 HashProbe.quadratic) i).validity = HASH_USED) ∧
    (∀ i, i < (fullTable3 HashProbe.quadratic).size →
      slotKeyMatches (slotAt (fullTable3 HashProbe.quadratic) i) [100] 1 = false) ∧
    ∃ b, aaInsert 3 HASH_USED (fullTable3 HashProbe.quadratic) [100] 1 14 = some (-1, b) ∧
      b.table = (fullTable3 HashProbe.quadratic).table ∧
      b.nEntries = (fullTable3 HashProbe.quadratic).nEntries ∧
      b.size = (fullTable3 HashProbe.quadratic).size :=
  ⟨wellFormed_fullTable3 _, by decide, by decide,
    C9_insert_into_full 3 HASH_USED (fullTable3 HashProbe.quadratic)
      (wellFormed_fullTable3 _) (Nat.le_refl 3) [100] 1 14 (by decide) (by decide)⟩

/-! ## C7: deleting one key does not disturb the lookup of another -/

/-- How `aaDelete` comes to its result: its probe ends in some iteration `n` with `idx`;
either the slot there is in use and holds the key, and becomes a tombstone, or nothing
but `deleteCost` changes and `NULL` is returned. -/
theorem aaDelete_cases (fuel : Nat) (a : AssociativeArray) (key : AAKeyType) (keylen : Nat)
    (r : Nat) (b : AssociativeArray) (h : aaDelete fuel a key keylen = some (r, b)) :
    ∃ n idx, n < fuel ∧ ProbeEnds a key keylen false n idx ∧
      ((r = 0 ∧ b = { a with deleteCost := a.deleteCost + n + 1 } ∧
          (idx = -1 ∨ slotHasKey (slotAt a idx.toNat) key keylen = false)) ∨
       (idx = (probeSeq a key keylen n : Int) ∧
          slotHasKey (slotAt a (probeSeq a key keylen n)) key keylen = true ∧
          r = (slotAt a (probeSeq a key keylen n)).value ∧
          b = { a with
                deleteCost := a.deleteCost + n + 1
                table := a.table.set (probeSeq a key keylen n)
                  { slotAt a (probeSeq a key keylen n) with validity := HASH_DELETED }
                nEntries := a.nEntries - 1 })) := by
  unfold aaDelete at h
  simp only at h
  cases hp : callProbe fuel a key keylen (a.hashAlgorithmPrimary key keylen a.size) false
      a.deleteCost with
  | none => rw [hp] at h; cases h
  | some res =>
    obtain ⟨idx, c⟩ := res
    rw [hp] at h
    simp only at h
    obtain ⟨n, hn, hc, hends⟩ := (callProbe_eq_some_iff fuel a key keylen false _ idx c).1 hp
    refine ⟨n, idx, hn, hends, ?_⟩
    have hs : ∀ i, slotAt { a with deleteCost := c } i = slotAt a i := fun i => rfl
    simp only [hs] at h
    rcases hends.2 with ⟨_, hidx⟩ | ⟨_, _, hidx⟩
    · subst hidx
      simp only [Int.ofNat_nonneg, true_and, Int.toNat_ofNat] at h
      by_cases hu : (slotAt a (probeSeq a key keylen n)).validity = HASH_USED
      · rw [if_pos hu] at h
        by_cases hk : slotKeyMatches (slotAt a (probeSeq a key keylen n)) key keylen = true
        · rw [if_pos hk] at h
          simp only [Option.some.injEq, Prod.mk.injEq] at h
          right
          refine ⟨rfl, by simp [slotHasKey, hu, hk], h.1.symm, ?_⟩
          rw [← h.2, hc]
        · rw [if_neg hk] at h
          simp only [Option.some.injEq, Prod.mk.injEq] at h
          left
          refine ⟨h.1.symm, by rw [← h.2, hc], Or.inr ?_⟩
          simp only [Int.toNat_ofNat]
          simpa [slotHasKey, hu] using hk
      · rw [if_neg hu] at h
        simp only [Option.some.injEq, Prod.mk.injEq] at h
        left
        refine ⟨h.1.symm, by rw [← h.2, hc], Or.inr ?_⟩
        simp [slotHasKey, hu]
    · subst hidx
      simp only [show ¬ ((0 : Int) ≤ -1) by decide, false_and, if_false, Option.some.injEq,
        Prod.mk.injEq] at h
      left
      exact ⟨h.1.symm, by rw [← h.2, hc], Or.inl rfl⟩

/-- If every slot of `b` looks the same as that of `a` to a lookup of the key, the
lookup in `b` ends like the lookup in `a` and returns the same value. -/
theorem aaLookup_congr (fuel : Nat) (a b : AssociativeArray) (hsh : SameShape a b)
    (key : AAKeyType) (keylen : Nat)
    (hst : ∀ i, stopsAt (slotAt b i) key keylen false = stopsAt (slotAt a i) key keylen false)
    (hval : ∀ idx, lookupValue b idx key keylen = lookupValue a idx key keylen)
    (n : Nat) (idx : HashIndex) (hn : n < fuel) (h : ProbeEnds a key keylen false n idx) :
    aaLookup fuel b key keylen
      = some (lookupValue a idx key keylen, { b with searchCost := b.searchCost + n + 1 }) := by
  have h2 : ProbeEnds b key keylen false n idx :=
    ProbeEnds_congr a b hsh key keylen false false n idx (fun m _ => hst _) h
  rw [aaLookup_eq fuel b key keylen n idx hn h2, hval]

theorem doKeysMatch_eq_one_iff (key1 : AAKeyType) (key1len : Nat) (key2 : AAKeyType)
    (key2len : Nat) : doKeysMatch key1 key1len key2 key2len = 1 ↔
      key1len = key2len ∧ key1.take key1len = key2.take key1len := by
  unfold doKeysMatch
  by_cases h1 : key1len = key2len
  · by_cases h2 : key1.take key1len = key2.take key1len
    · simp [h1, h2]
    · simp [h1, h2]
  · simp [h1]

/-- A slot that holds one key does not match a different key. -/
theorem slotKeyMatches_of_distinct (s : KeyDataPair) (key : AAKeyType) (keylen : Nat)
    (key2 : AAKeyType) (keylen2 : Nat) (h : slotKeyMatches s key keylen = true)
    (hd : doKeysMatch key keylen key2 keylen2 ≠ 1) : slotKeyMatches s key2 keylen2 = false := by
  unfold slotKeyMatches at h ⊢
  cases hk : s.key with
  | none => rfl
  | some ks =>
    rw [hk] at h
    rw [decide_eq_true_eq, doKeysMatch_eq_one_iff] at h
    rw [decide_eq_false_iff_not, doKeysMatch_eq_one_iff]
    rintro ⟨e2, e4⟩
    obtain ⟨e1, e3⟩ := h
    apply hd
    rw [doKeysMatch_eq_one_iff]
    refine ⟨by omega, ?_⟩
    rw [← e1, ← e3, e4]

theorem lookupValue_eq_of_slot (a b : AssociativeArray) (key : AAKeyType) (keylen : Nat)
    (h : ∀ i, slotAt b i = slotAt a i ∨
        (slotHasKey (slotAt b i) key keylen = false ∧ slotHasKey (slotAt a i) key keylen = false))
    (idx : HashIndex) : lookupValue b idx key keylen = lookupValue a idx key keylen := by
  unfold lookupValue
  by_cases h0 : 0 ≤ idx
  · rcases h idx.toNat with h1 | ⟨h1, h2⟩
    · rw [h1]
    · simp only [slotHasKey, Bool.and_eq_false_iff, decide_eq_false_iff_not] at h1 h2
      rcases h1 with h1 | h1 <;> rcases h2 with h2 | h2 <;> simp [h0, h1, h2]
  · simp [h0]

/-- The lookup of one key before and after the deletion of a different key. -/
theorem aaLookup_after_delete_other (fuel fuel2 : Nat) (a : AssociativeArray)
    (hwf : WellFormed a) (key : AAKeyType) (keylen : Nat) (key2 : AAKeyType) (keylen2 : Nat)
    (hd : doKeysMatch key keylen key2 keylen2 ≠ 1) (r : Nat) (b : AssociativeArray)
    (hdel : aaDelete fuel a key keylen = some (r, b)) (hfuel2 : a.size ≤ fuel2) :
    ∃ v c1 c2, aaLookup fuel2 a key2 keylen2 = some (v, c1) ∧
      aaLookup fuel2 b key2 keylen2 = some (v, c2) := by
  obtain ⟨n2, idx2, hn2, hends2, hlook⟩ := aaLookup_total fuel2 a hwf hfuel2 key2 keylen2
  obtain ⟨n, idx, _, _, hcase⟩ := aaDelete_cases fuel a key keylen r b hdel
  refine ⟨lookupValue a idx2 key2 keylen2, _,
    { b with searchCost := b.searchCost + n2 + 1 }, hlook, ?_⟩
  rcases hcase with ⟨_, hb, _⟩ | ⟨_, hkey, _, hb⟩
  · have hsl : ∀ i, slotAt b i = slotAt a i := fun i => by rw [hb]; rfl
    have hsh : SameShape a b := by rw [hb]; exact ⟨rfl, rfl, rfl, rfl⟩
    exact aaLookup_congr fuel2 a b hsh key2 keylen2 (fun i => by rw [hsl i])
      (lookupValue_eq_of_slot a b key2 keylen2 (fun i => Or.inl (hsl i))) n2 idx2 hn2 hends2
  · have hlt : probeSeq a key keylen n < a.table.length := by
      rw [hwf.2.1]; exact probeSeq_lt a hwf key keylen n
    have htab : b.table = a.table.set (probeSeq a key keylen n)
        { slotAt a (probeSeq a key keylen n) with validity := HASH_DELETED } := by rw [hb]
    have hslot := slotAt_of_set a b _ _ htab hlt
    have hsh : SameShape a b := by rw [hb]; exact ⟨rfl, rfl, rfl, rfl⟩
    have hused := slotHasKey_used _ _ _ hkey
    have hm : slotKeyMatches (slotAt a (probeSeq a key keylen n)) key keylen = true := by
      simp only [slotHasKey, Bool.and_eq_true] at hkey; exact hkey.2
    have hno := slotKeyMatches_of_distinct _ key keylen key2 keylen2 hm hd
    have hsl : ∀ i, slotAt b i = slotAt a i ∨
        (slotHasKey (slotAt b i) key2 keylen2 = false ∧
          slotHasKey (slotAt a i) key2 keylen2 = false) := by
      intro i
      by_cases hi : i = probeSeq a key keylen n
      · right
        rw [hslot, if_pos hi, hi]
        exact ⟨by simp [slotHasKey], by simp [slotHasKey, hno]⟩
      · left; rw [hslot, if_neg hi]
    refine aaLookup_congr fuel2 a b hsh key2 keylen2 (fun i => ?_)
      (lookupValue_eq_of_slot a b key2 keylen2 hsl) n2 idx2 hn2 hends2
    by_cases hi : i = probeSeq a key keylen n
    · rw [hslot, if_pos hi, hi]
      simp [stopsAt, slotHasKey, hno, hused]
    · rw [hslot, if_neg hi]

/-- C7. On a well-formed table, for keys `key` and `key2` that `doKeysMatch` tells
apart: after `aaDelete (key)` has returned, `aaLookup (key2)` returns the same result
as it does before the deletion (the lookup probe walks past the tombstone exactly as
it walked past the entry). -/
theorem C7_delete_keeps_other_lookup (fuel fuel2 : Nat) (a : AssociativeArray)
    (hwf : WellFormed a) (key : AAKeyType) (keylen : Nat) (key2 : AAKeyType) (keylen2 : Nat)
    (hd : doKeysMatch key keylen key2 keylen2 ≠ 1) (r : Nat) (b : AssociativeArray)
    (hdel : aaDelete fuel a key keylen = some (r, b)) (hfuel2 : a.size ≤ fuel2) :
    ∃ v c1 c2, aaLookup fuel2 a key2 keylen2 = some (v, c1) ∧
      aaLookup fuel2 b key2 keylen2 = some (v, c2) :=
  aaLookup_after_delete_other fuel fuel2 a hwf key keylen key2 keylen2 hd r b hdel hfuel2

/-- Witness of C7: in the size-5 table holding `"a"` at slot 2 and `"f"` at slot 3,
deleting `"a"` leaves the lookup of `"f"` at 12. -/
theorem C7_delete_keeps_other_lookup_witness :
    WellFormed tableAF ∧ doKeysMatch [97] 1 [102] 1 ≠ 1 ∧
    aaDelete 5 tableAF [97] 1 = some (11, tableDF) ∧
    ∃ v c1 c2, aaLookup 5 tableAF [102] 1 = some (v, c1) ∧
      aaLookup 5 tableDF [102] 1 = some (v, c2) :=
  ⟨wellFormed_tableAF, by decide, rfl,
    C7_delete_keeps_other_lookup 5 5 tableAF wellFormed_tableAF [97] 1 [102] 1 (by decide)
      11 tableDF rfl (Nat.le_refl 5)⟩

/-! ## C6: re-inserting a key right after deleting it -/

/-- An iteration that no earlier iteration reported full before is below `size`. -/
theorem iteration_lt_size (a : AssociativeArray) (hwf : WellFormed a) (key : AAKeyType)
    (keylen n : Nat) (h : ∀ m, m < n → probeFullAt a key keylen m = false) : n < a.size := by
  by_contra hcon
  have hlast := h (a.size - 1) (by have := hwf.1; omega)
  rw [probeFullAt_last a hwf key keylen] at hlast
  cases hlast

/-- When the insert probe ends at a slot that is not in use, `aaInsert` writes it. -/
theorem aaInsert_of_probe_slot (fuel : Nat) (stray : Validity) (a : AssociativeArray)
    (hwf : WellFormed a) (key : AAKeyType) (keylen value n : Nat) (hn : n < fuel)
    (hends : ProbeEnds a key keylen true n (probeSeq a key keylen n : Int))
    (hnu : (slotAt a (probeSeq a key keylen n)).validity ≠ HASH_USED) :
    aaInsert fuel stray a key keylen value
      = some ((probeSeq a key keylen n : Int),
          { a with
            insertCost := a.insertCost + n + 1
            table := a.table.set (probeSeq a key keylen n) (newSlot key keylen value)
            nEntries := a.nEntries + 1 }) := by
  have hp := (callProbe_eq_some_iff fuel a key keylen true a.insertCost _
    (a.insertCost + n + 1)).2 ⟨n, hn, rfl, hends⟩
  have hlt := probeSeq_lt a hwf key keylen n
  unfold aaInsert
  simp only [hp]
  have hv : validityAt { a with insertCost := a.insertCost + n + 1 } stray
      (probeSeq a key keylen n : Int) = (slotAt a (probeSeq a key keylen n)).validity := by
    unfold validityAt
    have h1 : (0 : Int) ≤ (probeSeq a key keylen n : Int) := Int.ofNat_nonneg _
    have h2 : ((probeSeq a key keylen n : Nat) : Int) < (a.size : Int) := by
      exact_mod_cast hlt
    simp only [h1, h2, and_self, if_true, Int.toNat_ofNat]
    rfl
  rw [hv, if_neg hnu, if_pos (Int.ofNat_nonneg _)]
  simp [newSlot]

/-- C6. On a well-formed table, if `aaDelete (key)` turns slot `p` from in-use into a
tombstone, then `aaInsert (key, value)` called next succeeds: it returns the index
`probeSeq m` of the first tombstone on the probe sequence of the key (that slot is
`HASH_DELETED` and no earlier slot of the sequence is), and this index is `p` whenever
`p` sits on the sequence with no tombstone before it. -/
theorem C6_reinsert_after_delete (fuel fuel2 : Nat) (stray : Validity) (a : AssociativeArray)
    (hwf : WellFormed a) (key : AAKeyType) (keylen value : Nat) (r : Nat)
    (b : AssociativeArray) (p : Nat)
    (hdel : aaDelete fuel a key keylen = some (r, b))
    (hwas : (slotAt a p).validity = HASH_USED) (hnow : (slotAt b p).validity = HASH_DELETED)
    (hfuel2 : a.size ≤ fuel2) :
    ∃ m c, aaInsert fuel2 stray b key keylen value
        = some ((probeSeq b key keylen m : Int), c) ∧
      (slotAt b (probeSeq b key keylen m)).validity = HASH_DELETED ∧
      (∀ k, k < m → (slotAt b (probeSeq b key keylen k)).validity ≠ HASH_DELETED) ∧
      (∀ n, probeSeq b key keylen n = p →
        (∀ k, k < n → (slotAt b (probeSeq b key keylen k)).validity ≠ HASH_DELETED) →
        probeSeq b key keylen m = p) := by
  obtain ⟨n0, idx, _, hends, hcase⟩ := aaDelete_cases fuel a key keylen r b hdel
  rcases hcase with ⟨_, hb, _⟩ | ⟨hidx, hkey, _, hb⟩
  · exfalso
    have : slotAt b p = slotAt a p := by rw [hb]; rfl
    rw [this, hwas] at hnow; cases hnow
  · have hlt : probeSeq a key keylen n0 < a.table.length := by
      rw [hwf.2.1]; exact probeSeq_lt a hwf key keylen n0
    have htab : b.table = a.table.set (probeSeq a key keylen n0)
        { slotAt a (probeSeq a key keylen n0) with validity := HASH_DELETED } := by rw [hb]
    have hslot := slotAt_of_set a b _ _ htab hlt
    have hsh : SameShape a b := by rw [hb]; exact ⟨rfl, rfl, rfl, rfl⟩
    obtain ⟨hp, hs, h1, h2⟩ := hsh
    have hwfb : WellFormed b := by
      rw [hb]
      exact ⟨hwf.1, by simp only [List.length_set]; exact hwf.2.1, hwf.2.2⟩
    have hseq : ∀ k, probeSeq b key keylen k = probeSeq a key keylen k :=
      fun k => probeSeq_congr a b hp hs h1 h2 key keylen k
    have hfull : ∀ k, probeFullAt b key keylen k = probeFullAt a key keylen k :=
      fun k => probeFullAt_congr a b hp hs h1 h2 key keylen k
    have hst0 : stopsAt (slotAt a (probeSeq a key keylen n0)) key keylen false = true :=
      stopsAt_of_slotHasKey _ _ _ _ hkey
    -- before iteration `n0` the slots are unchanged and only a tombstone can stop
    have hbefore : ∀ k, k < n0 →
        slotAt b (probeSeq b key keylen k) = slotAt a (probeSeq a key keylen k) ∧
        stopsAt (slotAt a (probeSeq a key keylen k)) key keylen false = false := by
      intro k hk
      have hf := (hends.1 k hk).1
      have hne : probeSeq a key keylen k ≠ probeSeq a key keylen n0 := by
        intro he; rw [he, hst0] at hf; cases hf
      rw [hseq, hslot, if_neg hne]
      exact ⟨rfl, hf⟩
    have hat : (slotAt b (probeSeq b key keylen n0)).validity = HASH_DELETED := by
      rw [hseq, hslot, if_pos rfl]
    have hex : ∃ k, stopsAt (slotAt b (probeSeq b key keylen k)) key keylen true = true :=
      ⟨n0, by simp [stopsAt, hat]⟩
    have hm := Nat.find_spec hex
    have hmle : Nat.find hex ≤ n0 := Nat.find_min' hex (by simp [stopsAt, hat])
    have hmin : ∀ k, k < Nat.find hex →
        stopsAt (slotAt b (probeSeq b key keylen k)) key keylen true = false := by
      intro k hk
      have := Nat.find_min hex hk
      simpa using this
    have hdelm : (slotAt b (probeSeq b key keylen (Nat.find hex))).validity = HASH_DELETED := by
      rcases Nat.lt_or_eq_of_le hmle with hlt2 | heq
      · obtain ⟨hsame, hf⟩ := hbefore _ hlt2
        rw [hsame] at hm ⊢
        exact deleted_of_stopsAt _ _ _ hm hf
      · rw [heq]; exact hat
    have hendsb : ProbeEnds b key keylen true (Nat.find hex)
        (probeSeq b key keylen (Nat.find hex) : Int) := by
      refine ⟨fun k hk => ⟨hmin k hk, ?_⟩, Or.inl ⟨hm, rfl⟩⟩
      rw [hfull]; exact (hends.1 k (by omega)).2
    have hmfuel : Nat.find hex < fuel2 := by
      have := iteration_lt_size b hwfb key keylen _ (fun k hk => (hendsb.1 k hk).2)
      rw [hs] at this; omega
    refine ⟨Nat.find hex, _, aaInsert_of_probe_slot fuel2 stray b hwfb key keylen value _
      hmfuel hendsb (by rw [hdelm]; decide), hdelm, fun k hk => ?_, fun n hn hnone => ?_⟩
    · rw [(stopsAt_true_false _ _ _ (hmin k hk)).1]; decide
    · have hpd : (slotAt b (probeSeq b key keylen n)).validity = HASH_DELETED := by
        rw [hn]; exact hnow
      have h1 : Nat.find hex ≤ n := Nat.find_min' hex (by simp [stopsAt, hpd])
      rcases Nat.lt_or_eq_of_le h1 with hlt2 | heq
      · exact absurd hdelm (hnone _ hlt2)
      · rw [heq]; exact hn

/-- Witness of C6: in the size-5 table holding `"a"` at slot 2 and `"f"` at slot 3,
deleting `"a"` makes slot 2 a tombstone and re-inserting `"a"` lands on slot 2. -/
theorem C6_reinsert_after_delete_witness :
    WellFormed tableAF ∧ aaDelete 5 tableAF [97] 1 = some (11, tableDF) ∧
    (slotAt tableAF 2).validity = HASH_USED ∧ (slotAt tableDF 2).validity = HASH_DELETED ∧
    ∃ m c, aaInsert 5 HASH_EMPTY tableDF [97] 1 21
        = some ((probeSeq tableDF [97] 1 m : Int), c) ∧
      (slotAt tableDF (probeSeq tableDF [97] 1 m)).validity = HASH_DELETED ∧
      (∀ k, k < m → (slotAt tableDF (probeSeq tableDF [97] 1 k)).validity ≠ HASH_DELETED) ∧
      (∀ n, probeSeq tableDF [97] 1 n = 2 →
        (∀ k, k < n → (slotAt tableDF (probeSeq tableDF [97] 1 k)).validity ≠ HASH_DELETED) →
        probeSeq tableDF [97] 1 m = 2) :=
  ⟨wellFormed_tableAF, rfl, rfl, rfl,
    C6_reinsert_after_delete 5 5 HASH_EMPTY tableAF wellFormed_tableAF [97] 1 21 11 tableDF 2
      rfl rfl rfl (Nat.le_refl 5)⟩

/-! ## Reachable tables are well formed -/

theorem wellFormed_of_created (getLargerPrime : Nat → Int) (hashByPrime : HashAlgorithm)
    (size : Nat) (probingStrategy hashPrimary hashSecondary : String) (a : AssociativeArray)
    (h : aaCreateAssociativeArray getLargerPrime hashByPrime size probingStrategy
      hashPrimary hashSecondary = some a) (hc : HashContract a) :
    WellFormed a ∧ a.table = List.replicate a.size zeroSlot ∧ a.nEntries = 0 := by
  unfold aaCreateAssociativeArray at h
  simp only at h
  by_cases hlt : getLargerPrime size < 1
  · rw [if_pos hlt] at h; cases h
  · rw [if_neg hlt] at h
    simp only [Option.some.injEq] at h
    subst h
    refine ⟨⟨?_, ?_, hc⟩, rfl, rfl⟩
    · show 0 < (getLargerPrime size).toNat
      omega
    · exact List.length_replicate _ _

theorem shape_of_insert (fuel : Nat) (stray : Validity) (a : AssociativeArray)
    (hwf : WellFormed a) (key : AAKeyType) (keylen value : Nat) (r : Int)
    (b : AssociativeArray) (h : aaInsert fuel stray a key keylen value = some (r, b)) :
    SameShape a b ∧ b.table.length = a.table.length := by
  obtain ⟨n, idx, _, _, hcase⟩ := aaInsert_cases fuel stray a hwf key keylen value r b h
  rcases hcase with ⟨_, hb, _⟩ | ⟨_, _, _, _, hb⟩
  · rw [hb]; exact ⟨⟨rfl, rfl, rfl, rfl⟩, rfl⟩
  · rw [hb]; exact ⟨⟨rfl, rfl, rfl, rfl⟩, by simp only [List.length_set]⟩

theorem shape_of_delete (fuel : Nat) (a : AssociativeArray) (key : AAKeyType) (keylen : Nat)
    (r : Nat) (b : AssociativeArray) (h : aaDelete fuel a key keylen = some (r, b)) :
    SameShape a b ∧ b.table.length = a.table.length := by
  obtain ⟨n, idx, _, _, hcase⟩ := aaDelete_cases fuel a key keylen r b h
  rcases hcase with ⟨_, hb, _⟩ | ⟨_, _, _, hb⟩
  · rw [hb]; exact ⟨⟨rfl, rfl, rfl, rfl⟩, rfl⟩
  · rw [hb]; exact ⟨⟨rfl, rfl, rfl, rfl⟩, by simp only [List.length_set]⟩

/-- `aaLookup` changes nothing but `searchCost`. -/
theorem aaLookup_frame (fuel : Nat) (a : AssociativeArray) (key : AAKeyType) (keylen : Nat)
    (r : Nat) (b : AssociativeArray) (h : aaLookup fuel a key keylen = some (r, b)) :
    ∃ c, b = { a with searchCost := c } := by
  unfold aaLookup at h
  simp only at h
  cases hp : callProbe fuel a key keylen (a.hashAlgorithmPrimary key keylen a.size) false
      a.searchCost with
  | none => rw [hp] at h; cases h
  | some res =>
    obtain ⟨idx, c⟩ := res
    rw [hp] at h
    simp only at h
    refine ⟨c, ?_⟩
    split_ifs at h <;> simp only [Option.some.injEq, Prod.mk.injEq] at h <;> exact h.2.symm

theorem wellFormed_of_shape (a b : AssociativeArray) (hwf : WellFormed a)
    (h : SameShape a b ∧ b.table.length = a.table.length) : WellFormed b := by
  obtain ⟨⟨_, hs, h1, h2⟩, hl⟩ := h
  obtain ⟨hpos, hlen, hc1, hc2, hc3⟩ := hwf
  refine ⟨by rw [hs]; exact hpos, by rw [hl, hs]; exact hlen, ?_, ?_, ?_⟩
  · intro key keylen; rw [hs, h1]; exact hc1 key keylen
  · intro key key2 keylen h; rw [hs, h1]; exact hc2 key key2 keylen h
  · intro key key2 keylen h; rw [hs, h2]; exact hc3 key key2 keylen h

/-- Every reachable table is well formed. -/
theorem wellFormed_of_reachable (a : AssociativeArray) (h : Reachable a) : WellFormed a := by
  induction h with
  | created glp hbp size ps hp hs a hcr hc =>
    exact (wellFormed_of_created glp hbp size ps hp hs a hcr hc).1
  | insert fuel stray a key keylen value r b _ hins ih =>
    exact wellFormed_of_shape a b ih (shape_of_insert fuel stray a ih key keylen value r b hins)
  | delete fuel a key keylen r b _ hdel ih =>
    exact wellFormed_of_shape a b ih (shape_of_delete fuel a key keylen r b hdel)
  | lookup fuel a key keylen r b _ hl ih =>
    obtain ⟨c, hb⟩ := aaLookup_frame fuel a key keylen r b hl
    rw [hb]; exact ih

/-! ## The scenario tables are reachable -/

theorem reachable_emptyTable5 : Reachable (emptyTable HashProbe.linear 5) :=
  Reachable.created (fun n => (n : Int)) hashBySum 5 "lin" "sum" "len" _ rfl
    (wellFormed_emptyTable HashProbe.linear 5 (by decide)).2.2

theorem reachable_tableA : Reachable tableA :=
  Reachable.insert 5 HASH_EMPTY _ [97] 1 11 2 _ reachable_emptyTable5 rfl

theorem reachable_tableAF : Reachable tableAF :=
  Reachable.insert 5 HASH_EMPTY _ [102] 1 12 3 _ reachable_tableA rfl

theorem reachable_tableDF : Reachable tableDF :=
  Reachable.delete 5 _ [97] 1 11 _ reachable_tableAF rfl

theorem reachable_tableFF : Reachable tableFF :=
  Reachable.insert 5 HASH_EMPTY _ [102] 1 22 2 _ reachable_tableDF rfl

/-! ## C5: `nEntries` counts the slots in use -/

theorem countP_set_add (p : KeyDataPair → Bool) (s : KeyDataPair) :
    ∀ (l : List KeyDataPair) (j : Nat), j < l.length →
    (l.set j s).countP p + (if p (l.getD j zeroSlot) then 1 else 0)
      = l.countP p + (if p s then 1 else 0) := by
  intro l
  induction l with
  | nil => intro j hj; simp at hj
  | cons x l ih =>
    intro j hj
    cases j with
    | zero =>
      simp only [List.set_cons_zero, List.countP_cons, List.getD_cons_zero]
      omega
    | succ j =>
      have hj2 : j < l.length := by simpa using hj
      have := ih j hj2
      simp only [List.set_cons_succ, List.countP_cons, List.getD_cons_succ]
      omega

theorem countUsed_replicate (n : Nat) :
    (List.replicate n zeroSlot).countP (fun s => decide (s.validity = HASH_USED)) = 0 := by
  induction n with
  | zero => rfl
  | succ n ih => rw [List.replicate_succ, List.countP_cons, ih]; rfl

/-- In every reachable table `nEntries` is the number of slots in use. -/
theorem nEntries_of_reachable (a : AssociativeArray) (h : Reachable a) :
    a.nEntries = (countUsed a : Int) := by
  induction h with
  | created glp hbp size ps hp hs a hcr hc =>
    obtain ⟨_, htab, hn⟩ := wellFormed_of_created glp hbp size ps hp hs a hcr hc
    rw [hn, countUsed, htab, countUsed_replicate]; rfl
  | insert fuel stray a key keylen value r b hreach hins ih =>
    have hwf := wellFormed_of_reachable a hreach
    obtain ⟨n, idx, _, _, hcase⟩ := aaInsert_cases fuel stray a hwf key keylen value r b hins
    rcases hcase with ⟨_, hb, _⟩ | ⟨_, _, hnu, _, hb⟩
    · rw [hb]; exact ih
    · have hlt : probeSeq a key keylen n < a.table.length := by
        rw [hwf.2.1]; exact probeSeq_lt a hwf key keylen n
      have hc := countP_set_add (fun s => decide (s.validity = HASH_USED))
        (newSlot key keylen value) a.table _ hlt
      have hnu2 : (a.table.getD (probeSeq a key keylen n) zeroSlot).validity ≠ HASH_USED := hnu
      simp only [hnu2, newSlot, decide_False, decide_True, if_true, if_false,
        Bool.false_eq_true] at hc
      rw [hb]
      simp only [countUsed, newSlot]
      rw [ih, countUsed]
      omega
  | delete fuel a key keylen r b hreach hdel ih =>
    have hwf := wellFormed_of_reachable a hreach
    obtain ⟨n, idx, _, _, hcase⟩ := aaDelete_cases fuel a key keylen r b hdel
    rcases hcase with ⟨_, hb, _⟩ | ⟨_, hkey, _, hb⟩
    · rw [hb]; exact ih
    · have hlt : probeSeq a key keylen n < a.table.length := by
        rw [hwf.2.1]; exact probeSeq_lt a hwf key keylen n
      have hc := countP_set_add (fun s => decide (s.validity = HASH_USED))
        { slotAt a (probeSeq a key keylen n) with validity := HASH_DELETED } a.table _ hlt
      have hu : (a.table.getD (probeSeq a key keylen n) zeroSlot).validity = HASH_USED :=
        slotHasKey_used _ _ _ hkey
      have hd : decide (HASH_DELETED = HASH_USED) = false := by decide
      simp only [hu, hd, decide_False, decide_True, if_true, if_false,
        Bool.false_eq_true] at hc
      rw [hb]
      simp only [countUsed]
      rw [ih, countUsed]
      omega
  | lookup fuel a key keylen r b _ hl ih =>
    obtain ⟨c, hb⟩ := aaLookup_frame fuel a key keylen r b hl
    rw [hb]; exact ih

/-- A pass of the iteration loop that is not cut short calls the user function once
for every slot in use among the `n` slots from `i` on. -/
theorem aaIterateLoop_calls {U : Type} (a : AssociativeArray)
    (f : Option AAKeyType → Nat → Nat → U → Int × U) (n : Nat) :
    ∀ (i : Nat) (userdata : U) (calls : List KeyDataPair),
    (aaIterateLoop a f n i userdata calls).1 = 1 →
    (aaIterateLoop a f n i userdata calls).2.2.length
      = calls.length
        + ((a.table.drop i).take n).countP (fun s => decide (s.validity = HASH_USED)) := by
  induction n with
  | zero => intro i userdata calls _; simp [aaIterateLoop]
  | succ n ih =>
    intro i userdata calls h
    have hcount : ((a.table.drop i).take (n + 1)).countP
          (fun s => decide (s.validity = HASH_USED))
        = ((a.table.drop (i + 1)).take n).countP (fun s => decide (s.validity = HASH_USED))
          + (if (slotAt a i).validity = HASH_USED then 1 else 0) := by
      by_cases hi : i < a.table.length
      · have hs : slotAt a i = a.table[i] := by
          unfold slotAt; rw [List.getD_eq_getElem _ _ hi]
        rw [List.drop_eq_getElem_cons hi, List.take_succ_cons, List.countP_cons, hs]
        simp
      · have hs : slotAt a i = zeroSlot := by
          unfold slotAt; rw [List.getD_eq_default _ _ (by omega)]
        rw [List.drop_eq_nil_of_le (by omega), List.drop_eq_nil_of_le (by omega), hs]
        simp [zeroSlot]
    rw [aaIterateLoop] at h ⊢
    by_cases hu : (slotAt a i).validity = HASH_USED
    · rw [if_pos hu] at h ⊢
      simp only at h ⊢
      by_cases hr : (f (slotAt a i).key (slotAt a i).keylen (slotAt a i).value userdata).1 < 0
      · rw [if_pos hr] at h; simp at h
      · rw [if_neg hr] at h ⊢
        rw [ih _ _ _ h, hcount, if_pos hu, List.length_append, List.length_singleton]
        omega
    · rw [if_neg hu] at h ⊢
      rw [ih _ _ _ h, hcount, if_neg hu]
      omega

/-- C5. In every table reachable from a newly created one by `aaInsert`, `aaDelete`
and `aaLookup` calls, `nEntries` equals the number of slots whose validity is
`HASH_USED`, and every pass of `aaIterateAction` that runs to its end (returns 1)
calls the user function exactly that many times. -/
theorem C5_nEntries_counts_used (a : AssociativeArray) (h : Reachable a) :
    a.nEntries = (countUsed a : Int) ∧
    ∀ (U : Type) (f : Option AAKeyType → Nat → Nat → U → Int × U) (userdata : U),
      (aaIterateAction a f userdata).1 = 1 →
      ((aaIterateAction a f userdata).2.2.length : Int) = a.nEntries := by
  refine ⟨nEntries_of_reachable a h, fun U f userdata hfull => ?_⟩
  have hwf := wellFormed_of_reachable a h
  unfold aaIterateAction at hfull ⊢
  rw [aaIterateLoop_calls a f a.size 0 userdata [] hfull, nEntries_of_reachable a h]
  rw [List.drop_zero, ← hwf.2.1, List.take_length]
  simp [countUsed]


/-- Witness of C5: the table after one insert into the empty size-5 table. -/
theorem C5_nEntries_counts_used_witness :
    Reachable tableA ∧
    (tableA.nEntries = (countUsed tableA : Int) ∧
     ∀ (U : Type) (f : Option AAKeyType → Nat → Nat → U → Int × U) (userdata : U),
      (aaIterateAction tableA f userdata).1 = 1 →
      ((aaIterateAction tableA f userdata).2.2.length : Int) = tableA.nEntries) :=
  ⟨reachable_tableA, C5_nEntries_counts_used tableA reachable_tableA⟩

/-! ## Reachable tables keep every key on its probe sequence -/

theorem probeState_of_take_eq (a : AssociativeArray) (hc : HashContract a) (key key2 : AAKeyType)
    (keylen : Nat) (h : key.take keylen = key2.take keylen) (n : Nat) :
    probeState a key keylen n = probeState a key2 keylen n := by
  unfold probeState
  rw [hc.2.1 key key2 keylen h, hc.2.2 key key2 keylen h]

theorem probeSeq_of_take_eq (a : AssociativeArray) (hc : HashContract a) (key key2 : AAKeyType)
    (keylen : Nat) (h : key.take keylen = key2.take keylen) (n : Nat) :
    probeSeq a key keylen n = probeSeq a key2 keylen n := by
  unfold probeSeq; rw [probeState_of_take_eq a hc key key2 keylen h]

theorem probeFullAt_of_take_eq (a : AssociativeArray) (hc : HashContract a)
    (key key2 : AAKeyType) (keylen : Nat) (h : key.take keylen = key2.take keylen) (n : Nat) :
    probeFullAt a key keylen n = probeFullAt a key2 keylen n := by
  unfold probeFullAt
  rw [probeState_of_take_eq a hc key key2 keylen h, hc.2.1 key key2 keylen h]

theorem slotAt_of_replicate (a : AssociativeArray) (n : Nat)
    (h : a.table = List.replicate n zeroSlot) (i : Nat) : slotAt a i = zeroSlot := by
  unfold slotAt
  rw [h, List.getD_eq_getElem?_getD, List.getElem?_replicate]
  split_ifs <;> rfl

/-- Tables of the same shape whose slots agree on key, key length and emptiness are
placed together. -/
theorem placed_of_same (a b : AssociativeArray) (hsh : SameShape a b)
    (h : ∀ i, (slotAt b i).key = (slotAt a i).key ∧ (slotAt b i).keylen = (slotAt a i).keylen ∧
      ((slotAt b i).validity = HASH_EMPTY ↔ (slotAt a i).validity = HASH_EMPTY))
    (hpl : Placed a) : Placed b := by
  obtain ⟨hp, hs, h1, h2⟩ := hsh
  intro i ks hi hv hk
  rw [(h i).1] at hk
  rw [hs] at hi
  obtain ⟨n, hn, hbefore⟩ := hpl i ks hi (fun he => hv ((h i).2.2.2 he)) hk
  refine ⟨n, ?_, fun m hm => ?_⟩
  · rw [(h i).2.1, probeSeq_congr a b hp hs h1 h2]; exact hn
  · rw [(h i).2.1, probeSeq_congr a b hp hs h1 h2, probeFullAt_congr a b hp hs h1 h2]
    exact ⟨fun he => (hbefore m hm).1 ((h _).2.2.1 he), (hbefore m hm).2⟩

/-- The invariant `Placed` holds in every reachable table. -/
theorem placed_of_reachable (a : AssociativeArray) (h : Reachable a) : Placed a := by
  induction h with
  | created glp hbp size ps hp hs a hcr hc =>
    obtain ⟨_, htab, _⟩ := wellFormed_of_created glp hbp size ps hp hs a hcr hc
    intro i ks _ hv _
    rw [slotAt_of_replicate a _ htab] at hv
    exact absurd rfl hv
  | insert fuel stray a key keylen value r b hreach hins ih =>
    have hwf := wellFormed_of_reachable a hreach
    obtain ⟨n, idx, _, hends, hcase⟩ := aaInsert_cases fuel stray a hwf key keylen value r b hins
    rcases hcase with ⟨_, hb, _⟩ | ⟨_, _, _, hst, hb⟩
    · refine placed_of_same a b (by rw [hb]; exact ⟨rfl, rfl, rfl, rfl⟩) (fun i => ?_) ih
      rw [hb]; exact ⟨rfl, rfl, Iff.rfl⟩
    · have hlt : probeSeq a key keylen n < a.table.length := by
        rw [hwf.2.1]; exact probeSeq_lt a hwf key keylen n
      have htab : b.table = a.table.set (probeSeq a key keylen n) (newSlot key keylen value) := by
        rw [hb]
      have hslot := slotAt_of_set a b _ _ htab hlt
      have hsh : SameShape a b := by rw [hb]; exact ⟨rfl, rfl, rfl, rfl⟩
      obtain ⟨hp, hs, h1, h2⟩ := hsh
      have hne : ∀ j, (slotAt a j).validity ≠ HASH_EMPTY → (slotAt b j).validity ≠ HASH_EMPTY := by
        intro j hj
        rw [hslot]
        by_cases hjj : j = probeSeq a key keylen n
        · rw [if_pos hjj]; simp [newSlot]
        · rw [if_neg hjj]; exact hj
      intro i ks hi hv hk
      rw [hs] at hi
      by_cases hij : i = probeSeq a key keylen n
      · -- the slot just written
        rw [hslot, if_pos hij] at hk ⊢
        simp only [newSlot, Option.some.injEq] at hk ⊢
        subst hk
        have htk : (key.take keylen).take keylen = key.take keylen := by
          rw [List.take_take, Nat.min_self]
        refine ⟨n, ?_, fun m hm => ?_⟩
        · rw [probeSeq_congr a b hp hs h1 h2, probeSeq_of_take_eq a hwf.2.2 _ key keylen htk,
            hij]
        · rw [probeSeq_congr a b hp hs h1 h2, probeFullAt_congr a b hp hs h1 h2,
            probeSeq_of_take_eq a hwf.2.2 _ key keylen htk,
            probeFullAt_of_take_eq a hwf.2.2 _ key keylen htk]
          refine ⟨hne _ ?_, (hends.1 m hm).2⟩
          rw [(stopsAt_true_false _ _ _ (hends.1 m hm).1).1]; decide
      · -- any other slot
        rw [hslot, if_neg hij] at hv hk ⊢
        obtain ⟨n', hn', hbefore⟩ := ih i ks hi hv hk
        refine ⟨n', ?_, fun m hm => ?_⟩
        · rw [probeSeq_congr a b hp hs h1 h2]; exact hn'
        · rw [probeSeq_congr a b hp hs h1 h2, probeFullAt_congr a b hp hs h1 h2]
          exact ⟨hne _ (hbefore m hm).1, (hbefore m hm).2⟩
  | delete fuel a key keylen r b hreach hdel ih =>
    have hwf := wellFormed_of_reachable a hreach
    obtain ⟨n, idx, _, _, hcase⟩ := aaDelete_cases fuel a key keylen r b hdel
    rcases hcase with ⟨_, hb, _⟩ | ⟨_, hkey, _, hb⟩
    · refine placed_of_same a b (by rw [hb]; exact ⟨rfl, rfl, rfl, rfl⟩) (fun i => ?_) ih
      rw [hb]; exact ⟨rfl, rfl, Iff.rfl⟩
    · have hlt : probeSeq a key keylen n < a.table.length := by
        rw [hwf.2.1]; exact probeSeq_lt a hwf key keylen n
      have htab : b.table = a.table.set (probeSeq a key keylen n)
          { slotAt a (probeSeq a key keylen n) with validity := HASH_DELETED } := by rw [hb]
      have hslot := slotAt_of_set a b _ _ htab hlt
      refine placed_of_same a b (by rw [hb]; exact ⟨rfl, rfl, rfl, rfl⟩) (fun i => ?_) ih
      rw [hslot]
      by_cases hi : i = probeSeq a key keylen n
      · rw [if_pos hi, hi]
        refine ⟨rfl, rfl, ?_⟩
        rw [slotHasKey_used _ _ _ hkey]
        simp
      · rw [if_neg hi]; exact ⟨rfl, rfl, Iff.rfl⟩
  | lookup fuel a key keylen r b _ hl ih =>
    obtain ⟨c, hb⟩ := aaLookup_frame fuel a key keylen r b hl
    refine placed_of_same a b (by rw [hb]; exact ⟨rfl, rfl, rfl, rfl⟩) (fun i => ?_) ih
    rw [hb]; exact ⟨rfl, rfl, Iff.rfl⟩

/-! ## C8: inserting one key does not disturb the lookup of another -/

theorem lookupValue_pos (a : AssociativeArray) (idx : HashIndex) (key : AAKeyType)
    (keylen : Nat) (h : lookupValue a idx key keylen ≠ 0) :
    0 ≤ idx ∧ (slotAt a idx.toNat).validity = HASH_USED ∧
      slotKeyMatches (slotAt a idx.toNat) key keylen = true := by
  unfold lookupValue at h
  by_cases h1 : 0 ≤ idx ∧ (slotAt a idx.toNat).validity = HASH_USED
  · rw [if_pos h1] at h
    by_cases h2 : slotKeyMatches (slotAt a idx.toNat) key keylen = true
    · exact ⟨h1.1, h1.2, h2⟩
    · rw [if_neg h2] at h; exact absurd rfl h
  · rw [if_neg h1] at h; exact absurd rfl h

/-- In a placed table a lookup that stops at an empty slot has not missed the key: no
slot in use holds it. -/
theorem not_stored_of_stops_at_empty (a : AssociativeArray) (hwf : WellFormed a)
    (hpl : Placed a) (key : AAKeyType) (keylen n : Nat) (idx : HashIndex)
    (hends : ProbeEnds a key keylen false n idx)
    (hempty : (slotAt a (probeSeq a key keylen n)).validity = HASH_EMPTY)
    (i : Nat) (hi : i < a.size) (hu : (slotAt a i).validity = HASH_USED) :
    slotKeyMatches (slotAt a i) key keylen = false := by
  by_contra hcon
  have hm : slotKeyMatches (slotAt a i) key keylen = true := by simpa using hcon
  have hm2 := hm
  unfold slotKeyMatches at hm2
  cases hk : (slotAt a i).key with
  | none => rw [hk] at hm2; cases hm2
  | some ks =>
    rw [hk] at hm2
    simp only [decide_eq_true_eq, doKeysMatch_eq_one_iff] at hm2
    obtain ⟨hlen, htake⟩ := hm2
    obtain ⟨n', hn', hbefore⟩ := hpl i ks hi (by rw [hu]; decide) hk
    rw [hlen] at hn' hbefore htake
    have hseq := probeSeq_of_take_eq a hwf.2.2 ks key keylen htake
    simp only [hseq] at hn' hbefore
    have hstop : stopsAt (slotAt a (probeSeq a key keylen n')) key keylen false = true := by
      rw [hn']; exact stopsAt_of_slotHasKey _ _ _ _ (by simp [slotHasKey, hu, hm])
    have h1 : ¬ n' < n := by
      intro hlt
      have := (hends.1 n' hlt).1
      rw [hstop] at this; cases this
    have h2 : ¬ n < n' := fun hlt => (hbefore n hlt).1 hempty
    have h3 : n = n' := by omega
    rw [h3, hn', hu] at hempty
    cases hempty

/-- The lookup of one key before and after an insert of a different key, in a table
that is well formed and placed. -/
theorem aaLookup_after_insert_other (fuel fuel2 : Nat) (stray : Validity)
    (a : AssociativeArray) (hwf : WellFormed a) (hpl : Placed a) (key : AAKeyType)
    (keylen : Nat) (key2 : AAKeyType) (keylen2 value2 : Nat)
    (hd : doKeysMatch key2 keylen2 key keylen ≠ 1) (r : Int) (b : AssociativeArray)
    (hins : aaInsert fuel stray a key2 keylen2 value2 = some (r, b))
    (hfuel2 : a.size ≤ fuel2) :
    ∃ v c1 c2, aaLookup fuel2 a key keylen = some (v, c1) ∧
      aaLookup fuel2 b key keylen = some (v, c2) := by
  obtain ⟨n1, idx1, hn1, hends1, hlook1⟩ := aaLookup_total fuel2 a hwf hfuel2 key keylen
  obtain ⟨n, idx, _, _, hcase⟩ := aaInsert_cases fuel stray a hwf key2 keylen2 value2 r b hins
  rcases hcase with ⟨_, hb, _⟩ | ⟨_, _, hnu, hst, hb⟩
  · have hsl : ∀ i, slotAt b i = slotAt a i := fun i => by rw [hb]; rfl
    have hsh : SameShape a b := by rw [hb]; exact ⟨rfl, rfl, rfl, rfl⟩
    exact ⟨_, _, _, hlook1, aaLookup_congr fuel2 a b hsh key keylen (fun i => by rw [hsl i])
      (lookupValue_eq_of_slot a b key keylen (fun i => Or.inl (hsl i))) n1 idx1 hn1 hends1⟩
  · have hlt : probeSeq a key2 keylen2 n < a.table.length := by
      rw [hwf.2.1]; exact probeSeq_lt a hwf key2 keylen2 n
    have htab : b.table
        = a.table.set (probeSeq a key2 keylen2 n) (newSlot key2 keylen2 value2) := by rw [hb]
    have hslot := slotAt_of_set a b _ _ htab hlt
    have hsh : SameShape a b := by rw [hb]; exact ⟨rfl, rfl, rfl, rfl⟩
    have hwfb : WellFormed b :=
      wellFormed_of_shape a b hwf (shape_of_insert fuel stray a hwf key2 keylen2 value2 r b hins)
    have hnew : slotKeyMatches (newSlot key2 keylen2 value2) key keylen = false := by
      apply slotKeyMatches_of_distinct _ key2 keylen2 key keylen _ hd
      have := slotHasKey_newSlot key2 keylen2 value2
      simp only [slotHasKey, Bool.and_eq_true] at this
      exact this.2
    have hold : slotHasKey (slotAt a (probeSeq a key2 keylen2 n)) key keylen = false := by
      simp [slotHasKey, hnu]
    -- for the value returned, the written slot counts as before: it does not hold the key
    have hval : ∀ i, slotAt b i = slotAt a i ∨
        (slotHasKey (slotAt b i) key keylen = false ∧
          slotHasKey (slotAt a i) key keylen = false) := by
      intro i
      by_cases hi : i = probeSeq a key2 keylen2 n
      · right
        rw [hslot, if_pos hi, hi]
        exact ⟨by simp [slotHasKey, hnew], hold⟩
      · left; rw [hslot, if_neg hi]
    rcases stopsAt_not_used _ _ _ _ hst hnu with hempty | ⟨_, hdeleted⟩
    · -- the slot written was empty
      by_cases hpass : ∃ m, m ≤ n1 ∧ probeSeq a key keylen m = probeSeq a key2 keylen2 n
      · -- the lookup in `a` stopped at that empty slot: the key is in no slot in use
        obtain ⟨m, hm, hmj⟩ := hpass
        have hstj : stopsAt (slotAt a (probeSeq a key keylen m)) key keylen false = true := by
          rw [hmj]; simp [stopsAt, hempty]
        have hmn : m = n1 := by
          rcases Nat.lt_or_eq_of_le hm with hlt2 | heq
          · have := (hends1.1 m hlt2).1
            rw [hstj] at this; cases this
          · exact heq
        subst hmn
        have hv1 : lookupValue a idx1 key keylen = 0 := by
          rcases hends1.2 with ⟨_, hidx⟩ | ⟨_, _, hidx⟩
          · unfold lookupValue
            rw [hidx, Int.toNat_ofNat, hmj, hempty]
            simp
          · rw [hidx]; rfl
        obtain ⟨n2, idx2, hn2, hends2, hlook2⟩ := aaLookup_total fuel2 b hwfb
          (by rw [hsh.2.1]; exact hfuel2) key keylen
        have hv2 : lookupValue b idx2 key keylen = 0 := by
          by_contra hne
          obtain ⟨h0, hu2, hm2⟩ := lookupValue_pos b idx2 key keylen hne
          have hi2 : idx2.toNat < a.size := by
            rcases hends2.2 with ⟨_, hidx⟩ | ⟨_, _, hidx⟩
            · rw [hidx, Int.toNat_ofNat, ← hsh.2.1]
              exact probeSeq_lt b hwfb key keylen n2
            · rw [hidx] at h0; exact absurd h0 (by decide)
          have hne2 : idx2.toNat ≠ probeSeq a key2 keylen2 n := by
            intro he
            rw [hslot, if_pos he, hnew] at hm2
            cases hm2
          rw [hslot, if_neg hne2] at hu2 hm2
          have := not_stored_of_stops_at_empty a hwf hpl key keylen m idx1 hends1
            (by rw [hmj]; exact hempty) idx2.toNat hi2 hu2
          rw [this] at hm2
          cases hm2
        rw [hv1] at hlook1
        rw [hv2] at hlook2
        exact ⟨_, _, _, hlook1, hlook2⟩
      · -- the lookup in `a` never read that slot
        have hpass2 : ∀ m, m ≤ n1 → probeSeq a key keylen m ≠ probeSeq a key2 keylen2 n :=
          fun m hm he => hpass ⟨m, hm, he⟩
        have hends2 : ProbeEnds b key keylen false n1 idx1 := by
          apply ProbeEnds_congr a b hsh key keylen false false n1 idx1 _ hends1
          intro m hm
          rw [hslot, if_neg (hpass2 m hm)]
        refine ⟨_, _, { b with searchCost := b.searchCost + n1 + 1 }, hlook1, ?_⟩
        rw [aaLookup_eq fuel2 b key keylen n1 idx1 hn1 hends2,
          lookupValue_eq_of_slot a b key keylen hval]
    · -- the slot written was a tombstone: the lookup walks past it before and after
      refine ⟨_, _, _, hlook1, aaLookup_congr fuel2 a b hsh key keylen (fun i => ?_)
        (lookupValue_eq_of_slot a b key keylen hval) n1 idx1 hn1 hends1⟩
      by_cases hi : i = probeSeq a key2 keylen2 n
      · have hv : (newSlot key2 keylen2 value2).validity = HASH_USED := rfl
        rw [hslot, if_pos hi, hi]
        simp [stopsAt, slotHasKey, hnew, hdeleted, hv]
      · rw [hslot, if_neg hi]

/-- C8. In every table reachable from a newly created one, for keys `key2` and `key`
that `doKeysMatch` tells apart: after `aaInsert (key2, value2)` has returned (with
success or not), `aaLookup (key)` returns the same result as before the insert. -/
theorem C8_insert_keeps_other_lookup (fuel fuel2 : Nat) (stray : Validity)
    (a : AssociativeArray) (hreach : Reachable a) (key : AAKeyType) (keylen : Nat)
    (key2 : AAKeyType) (keylen2 value2 : Nat) (hd : doKeysMatch key2 keylen2 key keylen ≠ 1)
    (r : Int) (b : AssociativeArray)
    (hins : aaInsert fuel stray a key2 keylen2 value2 = some (r, b))
    (hfuel2 : a.size ≤ fuel2) :
    ∃ v c1 c2, aaLookup fuel2 a key keylen = some (v, c1) ∧
      aaLookup fuel2 b key keylen = some (v, c2) :=
  aaLookup_after_insert_other fuel fuel2 stray a (wellFormed_of_reachable a hreach)
    (placed_of_reachable a hreach) key keylen key2 keylen2 value2 hd r b hins hfuel2

theorem reachable_of_applyOp (fuel : Nat) (a b : AssociativeArray) (op : TableOp)
    (hreach : Reachable a) (h : applyOp fuel a op = some b) : Reachable b := by
  cases op with
  | insert stray key keylen value =>
    simp only [applyOp, Option.map_eq_some', Prod.exists, exists_eq_right] at h
    obtain ⟨r, hr⟩ := h
    exact Reachable.insert fuel stray a key keylen value r b hreach hr
  | delete key keylen =>
    simp only [applyOp, Option.map_eq_some', Prod.exists, exists_eq_right] at h
    obtain ⟨r, hr⟩ := h
    exact Reachable.delete fuel a key keylen r b hreach hr
  | lookup key keylen =>
    simp only [applyOp, Option.map_eq_some', Prod.exists, exists_eq_right] at h
    obtain ⟨r, hr⟩ := h
    exact Reachable.lookup fuel a key keylen r b hreach hr

/-- One call made with a different key does not change what a lookup returns. -/
theorem aaLookup_after_op_other (fuel fuel2 : Nat) (a b : AssociativeArray)
    (hreach : Reachable a) (key : AAKeyType) (keylen : Nat) (op : TableOp)
    (hd : doKeysMatch op.keyOf.1 op.keyOf.2 key keylen ≠ 1)
    (h : applyOp fuel a op = some b) (hfuel2 : a.size ≤ fuel2) :
    b.size = a.size ∧
    ∃ v c1 c2, aaLookup fuel2 a key keylen = some (v, c1) ∧
      aaLookup fuel2 b key keylen = some (v, c2) := by
  have hwf := wellFormed_of_reachable a hreach
  cases op with
  | insert stray key2 keylen2 value2 =>
    simp only [applyOp, Option.map_eq_some', Prod.exists, exists_eq_right] at h
    obtain ⟨r, hr⟩ := h
    exact ⟨(shape_of_insert fuel stray a hwf key2 keylen2 value2 r b hr).1.2.1,
      aaLookup_after_insert_other fuel fuel2 stray a hwf (placed_of_reachable a hreach)
        key keylen key2 keylen2 value2 hd r b hr hfuel2⟩
  | delete key2 keylen2 =>
    simp only [applyOp, Option.map_eq_some', Prod.exists, exists_eq_right] at h
    obtain ⟨r, hr⟩ := h
    exact ⟨(shape_of_delete fuel a key2 keylen2 r b hr).1.2.1,
      aaLookup_after_delete_other fuel fuel2 a hwf key2 keylen2 key keylen hd r b hr hfuel2⟩
  | lookup key2 keylen2 =>
    simp only [applyOp, Option.map_eq_some', Prod.exists, exists_eq_right] at h
    obtain ⟨r, hr⟩ := h
    obtain ⟨c, hb⟩ := aaLookup_frame fuel a key2 keylen2 r b hr
    obtain ⟨n1, idx1, hn1, hends1, hlook1⟩ := aaLookup_total fuel2 a hwf hfuel2 key keylen
    have hsl : ∀ i, slotAt b i = slotAt a i := fun i => by rw [hb]; rfl
    have hsh : SameShape a b := by rw [hb]; exact ⟨rfl, rfl, rfl, rfl⟩
    exact ⟨hsh.2.1, _, _, _, hlook1,
      aaLookup_congr fuel2 a b hsh key keylen (fun i => by rw [hsl i])
        (lookupValue_eq_of_slot a b key keylen (fun i => Or.inl (hsl i))) n1 idx1 hn1 hends1⟩

/-- A stored value stays retrievable: from a reachable table, any sequence of inserts,
deletes and lookups made with keys other than `key` leaves the result of
`aaLookup (key)` as it was. -/
theorem aaLookup_stable_under_other_keys (fuel fuel2 : Nat) (key : AAKeyType) (keylen : Nat)
    (ops : List TableOp) : ∀ (a b : AssociativeArray), Reachable a →
    (∀ op, op ∈ ops → doKeysMatch op.keyOf.1 op.keyOf.2 key keylen ≠ 1) →
    runOps fuel ops a = some b → a.size ≤ fuel2 →
    ∃ v c1 c2, aaLookup fuel2 a key keylen = some (v, c1) ∧
      aaLookup fuel2 b key keylen = some (v, c2) := by
  induction ops with
  | nil =>
    intro a b hreach _ hrun hfuel2
    simp only [runOps, Option.some.injEq] at hrun
    subst hrun
    obtain ⟨n1, idx1, _, _, hlook1⟩ :=
      aaLookup_total fuel2 a (wellFormed_of_reachable a hreach) hfuel2 key keylen
    exact ⟨_, _, _, hlook1, hlook1⟩
  | cons op ops ih =>
    intro a b hreach hops hrun hfuel2
    rw [runOps] at hrun
    cases hop : applyOp fuel a op with
    | none => rw [hop] at hrun; cases hrun
    | some a2 =>
      rw [hop] at hrun
      simp only at hrun
      obtain ⟨hsize, v, c1, c2, h1, h2⟩ := aaLookup_after_op_other fuel fuel2 a a2 hreach
        key keylen op (hops op (List.mem_cons_self _ _)) hop hfuel2
      obtain ⟨v2, c3, c4, h3, h4⟩ := ih a2 b (reachable_of_applyOp fuel a a2 op hreach hop)
        (fun o ho => hops o (List.mem_cons_of_mem _ ho)) hrun (by rw [hsize]; exact hfuel2)
      rw [h2] at h3
      simp only [Option.some.injEq, Prod.mk.injEq] at h3
      rw [← h3.1] at h4
      exact ⟨v, c1, c4, h1, h4⟩

/-- Witness of C8: inserting `"f"` after `"a"` in the size-5 table leaves the lookup of
`"a"` at 11. -/
theorem C8_insert_keeps_other_lookup_witness :
    Reachable tableA ∧ doKeysMatch [102] 1 [97] 1 ≠ 1 ∧
    aaInsert 5 HASH_EMPTY tableA [102] 1 12 = some (3, tableAF) ∧
    ∃ v c1 c2, aaLookup 5 tableA [97] 1 = some (v, c1) ∧
      aaLookup 5 tableAF [97] 1 = some (v, c2) :=
  ⟨reachable_tableA, by decide, rfl,
    C8_insert_keeps_other_lookup 5 5 HASH_EMPTY tableA reachable_tableA [97] 1 [102] 1 12
      (by decide) 3 tableAF rfl (Nat.le_refl 5)⟩

/-! ## C2, C3, C4: an insert that stops at a tombstone misses the key behind it

`aaInsert` probes with `invalidEndsSearch` set, so its probe returns the first
tombstone of the sequence without reading the slots behind it.  When the key is
stored behind that tombstone the insert writes a second copy of it. -/

/-- C3 evaluated: after insert `"a"`, insert `"f"`, delete `"a"`, insert `"f"` on the
empty size-5 table (sum hash, linear probe) the slots 2 and 3 are both in use and
both hold the key `"f"`. -/
theorem C3_two_slots_hold_one_key :
    runOps 5 (opsToDF ++ [TableOp.insert HASH_EMPTY [102] 1 22])
      (emptyTable HashProbe.linear 5) = some tableFF ∧
    Reachable tableFF ∧
    (slotAt tableFF 2).validity = HASH_USED ∧ (slotAt tableFF 3).validity = HASH_USED ∧
    (slotAt tableFF 2).key = some [102] ∧ (slotAt tableFF 3).key = some [102] ∧
    doKeysMatch [102] (slotAt tableFF 2).keylen [102] (slotAt tableFF 3).keylen = 1 :=
  ⟨rfl, reachable_tableFF, rfl, rfl, rfl, rfl, by decide⟩

/-- C4 evaluated: in the reachable table `tableDF` the key `"f"` is stored in slot 3,
in use; `aaInsert ("f", 22)` nevertheless returns slot 2, not `-1`, and `nEntries`
grows from 1 to 2. -/
theorem C4_insert_of_stored_key_succeeds :
    runOps 5 opsToDF (emptyTable HashProbe.linear 5) = some tableDF ∧
    Reachable tableDF ∧
    slotAt tableDF 3 = ⟨some [102], 1, 12, HASH_USED⟩ ∧
    (∀ stray, aaInsert 5 stray tableDF [102] 1 22 = some (2, tableFF)) ∧
    tableDF.nEntries = 1 ∧ tableFF.nEntries = 2 :=
  ⟨rfl, reachable_tableDF, rfl, fun _ => rfl, rfl, rfl⟩

/-- C2 evaluated: in the reachable table `tableFF`, `aaDelete ("f")` removes the copy in
slot 2 and returns 22; the `aaLookup ("f")` that follows finds the copy in slot 3 and
returns 12, not `NULL`. -/
theorem C2_lookup_after_delete_finds_key :
    Reachable tableFF ∧
    aaDelete 5 tableFF [102] 1 = some (22, tableFD) ∧
    aaLookup 5 tableFD [102] 1 = some (12, { tableFD with searchCost := 2 }) :=
  ⟨reachable_tableFF, rfl, rfl⟩

/-! ## C11: the key comparator -/

/-- Two buffers have the same first `n` bytes exactly when they agree at every index
below `n`. -/
theorem take_eq_take_iff (A B : List Nat) (n : Nat) :
    A.take n = B.take n ↔ ∀ i, i < n → A[i]? = B[i]? := by
  constructor
  · intro h i hi
    rw [← List.getElem?_take_of_lt hi, h, List.getElem?_take_of_lt hi]
  · intro h
    apply List.ext_getElem?
    intro i
    by_cases hi : i < n
    · rw [List.getElem?_take_of_lt hi, List.getElem?_take_of_lt hi]; exact h i hi
    · rw [List.getElem?_take_eq_none (by omega), List.getElem?_take_eq_none (by omega)]

/-- C11. `doKeysMatch (A, lenA, B, lenB)` returns 1 exactly when `lenA = lenB` and the
two buffers agree at every index below that length (whatever the bytes are, zero
included); it returns 0 in every other case, in particular whenever the lengths
differ; and for two byte sequences taken with their own lengths it returns 1 exactly
when they are the same sequence. -/
theorem C11_doKeysMatch_iff (A B : AAKeyType) (lenA lenB : Nat) :
    (doKeysMatch A lenA B lenB = 1 ↔ lenA = lenB ∧ ∀ i, i < lenA → A[i]? = B[i]?) ∧
    (doKeysMatch A lenA B lenB = 0 ↔ ¬ (lenA = lenB ∧ ∀ i, i < lenA → A[i]? = B[i]?)) ∧
    (lenA ≠ lenB → doKeysMatch A lenA B lenB = 0) ∧
    (doKeysMatch A A.length B B.length = 1 ↔ A = B) := by
  have h1 : doKeysMatch A lenA B lenB = 1 ↔
      lenA = lenB ∧ ∀ i, i < lenA → A[i]? = B[i]? := by
    rw [doKeysMatch_eq_one_iff, take_eq_take_iff]
  have h01 : doKeysMatch A lenA B lenB = 0 ∨ doKeysMatch A lenA B lenB = 1 := by
    unfold doKeysMatch; split_ifs <;> simp
  refine ⟨h1, ?_, ?_, ?_⟩
  · rw [← h1]
    rcases h01 with h | h <;> simp [h]
  · intro hne
    unfold doKeysMatch
    rw [if_pos hne]
  · rw [doKeysMatch_eq_one_iff]
    constructor
    · rintro ⟨hl, ht⟩
      rw [List.take_length] at ht
      rw [ht, hl, List.take_length]
    · intro h
      subst h
      exact ⟨rfl, rfl⟩

/-! ## C12: the collision scenario of the specification -/

/-- C12. In the empty size-5 table with sum hash, length hash as secondary hash and
linear probing, the keys `"a"` and `"f"` both hash to 2; `aaInsert ("a", va)` returns
slot 2 and `aaInsert ("f", vf)` returns slot 3; afterwards `aaLookup ("a")` returns
`va`, `aaLookup ("f")` returns `vf` and `aaLookup ("z")` returns `NULL`. -/
theorem C12_collision_scenario (va vf : Nat) (stray : Validity) :
    hashBySum [97] 1 5 = 2 ∧ hashBySum [102] 1 5 = 2 ∧
    aaInsert 5 stray (emptyTable HashProbe.linear 5) [97] 1 va = some (2, tableOfA va) ∧
    aaInsert 5 stray (tableOfA va) [102] 1 vf = some (3, tableOfAF va vf) ∧
    slotAt (tableOfAF va vf) 2 = ⟨some [97], 1, va, HASH_USED⟩ ∧
    slotAt (tableOfAF va vf) 3 = ⟨some [102], 1, vf, HASH_USED⟩ ∧
    aaLookup 5 (tableOfAF va vf) [97] 1
      = some (va, { tableOfAF va vf with searchCost := 1 }) ∧
    aaLookup 5 { tableOfAF va vf with searchCost := 1 } [102] 1
      = some (vf, { tableOfAF va vf with searchCost := 3 }) ∧
    aaLookup 5 { tableOfAF va vf with searchCost := 3 } [122] 1
      = some (0, { tableOfAF va vf with searchCost := 6 }) := by
  refine ⟨by decide, by decide, ?_, ?_, rfl, rfl, ?_, ?_, ?_⟩ <;>
    simp [aaInsert, aaLookup, callProbe, linearProbe, linearProbeLoop, hashBySum, slotAt,
      tableOfA, tableOfAF, emptyTable, zeroSlot, newSlot, slotHasKey, slotKeyMatches,
      doKeysMatch, validityAt]

/-! ## C13: a new key after the deletion of `"a"` -/

/-- C13 refuted as stated: the key `"b"` (byte 98) hashes to 3, not to 2, in a table of
size 5, and in the table holding the tombstone of `"a"` at slot 2 and `"f"` at slot 3
`aaInsert ("b", 21)` returns slot 4, so it does not land at slot 2. -/
theorem C13_b_does_not_land_on_tombstone :
    hashBySum [98] 1 5 = 3 ∧
    aaDelete 5 tableAF [97] 1 = some (11, tableDF) ∧
    aaInsert 5 HASH_EMPTY tableDF [98] 1 21
      = some (4, { tableDF with
                   table := [zeroSlot, zeroSlot, ⟨some [97], 1, 11, HASH_DELETED⟩,
                     newSlot [102] 1 12, newSlot [98] 1 21]
                   nEntries := 2
                   insertCost := 5 }) ∧
    ¬ (hashBySum [98] 1 5 = 2 ∧
        ∃ b, aaInsert 5 HASH_EMPTY tableDF [98] 1 21 = some (2, b)) := by
  refine ⟨by decide, rfl, rfl, ?_⟩
  rintro ⟨h, _⟩
  exact absurd h (by decide)

/-- C13 amended. In the size-5 sum-hash, linear-probing table holding `"a"` at slot 2
and `"f"` at slot 3, `aaDelete ("a")` leaves a tombstone at slot 2; afterwards the key
`"b"` hashes to 3 and `aaInsert ("b", v)` lands at the empty slot 4, while a key that
hashes to 2, such as `"k"` (byte 107), lands exactly at slot 2 and overwrites the
tombstone left by `"a"`. -/
theorem C13_tombstone_reuse_scenario (va vf v : Nat) (stray : Validity) :
    aaDelete 5 (tableOfAF va vf) [97] 1 = some (va, tableOfDF va vf) ∧
    slotAt (tableOfDF va vf) 2 = ⟨some [97], 1, va, HASH_DELETED⟩ ∧
    hashBySum [98] 1 5 = 3 ∧
    aaInsert 5 stray (tableOfDF va vf) [98] 1 v
      = some (4, { tableOfDF va vf with
                   table := [zeroSlot, zeroSlot, ⟨some [97], 1, va, HASH_DELETED⟩,
                     newSlot [102] 1 vf, newSlot [98] 1 v]
                   nEntries := 2
                   insertCost := 5 }) ∧
    hashBySum [107] 1 5 = 2 ∧
    aaInsert 5 stray (tableOfDF va vf) [107] 1 v
      = some (2, { tableOfDF va vf with
                   table := [zeroSlot, zeroSlot, newSlot [107] 1 v, newSlot [102] 1 vf,
                     zeroSlot]
                   nEntries := 2
                   insertCost := 4 }) := by
  refine ⟨?_, rfl, by decide, ?_, by decide, ?_⟩ <;>
    simp [aaInsert, aaDelete, callProbe, linearProbe, linearProbeLoop, hashBySum, slotAt,
      tableOfA, tableOfAF, tableOfDF, emptyTable, zeroSlot, newSlot, slotHasKey,
      slotKeyMatches, doKeysMatch, validityAt]

/-! ## C14: the iteration -/

/-- The index loop of `aaIterateAction` is the iteration over the list of slots. -/
theorem aaIterateLoop_eq_iterateSlots {U : Type} (a : AssociativeArray)
    (f : Option AAKeyType → Nat → Nat → U → Int × U) (n : Nat) :
    ∀ (i : Nat) (userdata : U) (calls : List KeyDataPair),
    aaIterateLoop a f n i userdata calls
      = iterateSlots f ((a.table.drop i).take n) userdata calls := by
  induction n with
  | zero => intro i userdata calls; simp [aaIterateLoop, iterateSlots]
  | succ n ih =>
    intro i userdata calls
    rw [aaIterateLoop]
    by_cases hi : i < a.table.length
    · have hs : slotAt a i = a.table[i] := by
        unfold slotAt; rw [List.getD_eq_getElem _ _ hi]
      rw [List.drop_eq_getElem_cons hi, List.take_succ_cons, iterateSlots, hs]
      simp only [ih]
    · have hs : slotAt a i = zeroSlot := by
        unfold slotAt; rw [List.getD_eq_default _ _ (by omega)]
      have hz : ¬ zeroSlot.validity = HASH_USED := by decide
      rw [hs, if_neg hz, ih, List.drop_eq_nil_of_le (by omega),
        List.drop_eq_nil_of_le (by omega)]
      simp [iterateSlots]

/-- Slots that are not in use play no part in the iteration. -/
theorem iterateSlots_filter {U : Type} (f : Option AAKeyType → Nat → Nat → U → Int × U)
    (l : List KeyDataPair) : ∀ (userdata : U) (calls : List KeyDataPair),
    iterateSlots f l userdata calls
      = iterateSlots f (l.filter (fun s => decide (s.validity = HASH_USED))) userdata calls := by
  induction l with
  | nil => intro userdata calls; rfl
  | cons s rest ih =>
    intro userdata calls
    by_cases hu : s.validity = HASH_USED
    · rw [List.filter_cons_of_pos (by simpa using hu), iterateSlots, iterateSlots, if_pos hu,
        if_pos hu, ih]
    · rw [List.filter_cons_of_neg (by simpa using hu), iterateSlots, if_neg hu, ih]

/-- On slots that are all in use the iteration calls the user function up to and
including the first negative result. -/
theorem iterateSlots_of_used {U : Type} (f : Option AAKeyType → Nat → Nat → U → Int × U)
    (l : List KeyDataPair) : ∀ (userdata : U) (calls : List KeyDataPair),
    (∀ s, s ∈ l → s.validity = HASH_USED) →
    (iterateSlots f l userdata calls).2.2
        = calls ++ l.take ((callResults f l userdata).findIdx (fun r => decide (r < 0)) + 1) ∧
    (iterateSlots f l userdata calls).1
        = if (callResults f l userdata).findIdx (fun r => decide (r < 0)) < l.length
          then -1 else 1 := by
  induction l with
  | nil => intro userdata calls _; simp [iterateSlots, callResults]
  | cons s rest ih =>
    intro userdata calls hall
    have hu : s.validity = HASH_USED := hall s (List.mem_cons_self _ _)
    have hrest : ∀ t, t ∈ rest → t.validity = HASH_USED :=
      fun t ht => hall t (List.mem_cons_of_mem _ ht)
    rw [iterateSlots, if_pos hu, callResults, List.findIdx_cons]
    by_cases hneg : (f s.key s.keylen s.value userdata).1 < 0
    · rw [if_pos hneg]
      simp [hneg]
    · rw [if_neg hneg]
      obtain ⟨h1, h2⟩ := ih (f s.key s.keylen s.value userdata).2 (calls ++ [s]) hrest
      rw [h1, h2]
      simp [hneg]

/-- C14. On a table whose slot array has `size` slots, for every user function:
`aaIterateAction` is the iteration over the slots in array order; the calls it makes
are the slots in use, in index order, up to and including the first one on which the
user function returns a negative result (each call receives that slot's key, key
length and value); it returns `-1` when there is such a call and `1` otherwise, in
which case every slot in use has been visited.  It returns no table: the table is
only read. -/
theorem C14_iterate (a : AssociativeArray) (hlen : a.table.length = a.size) (U : Type)
    (f : Option AAKeyType → Nat → Nat → U → Int × U) (userdata : U) :
    aaIterateAction a f userdata = iterateSlots f a.table userdata [] ∧
    (aaIterateAction a f userdata).2.2
      = (usedSlots a).take
          ((callResults f (usedSlots a) userdata).findIdx (fun r => decide (r < 0)) + 1) ∧
    (aaIterateAction a f userdata).1
      = (if (callResults f (usedSlots a) userdata).findIdx (fun r => decide (r < 0))
            < (usedSlots a).length then -1 else 1) ∧
    ((aaIterateAction a f userdata).1 = 1 → (aaIterateAction a f userdata).2.2 = usedSlots a) := by
  have heq : aaIterateAction a f userdata = iterateSlots f a.table userdata [] := by
    unfold aaIterateAction
    rw [aaIterateLoop_eq_iterateSlots, List.drop_zero, ← hlen, List.take_length]
  have hall : ∀ s, s ∈ usedSlots a → s.validity = HASH_USED := by
    intro s hs
    unfold usedSlots at hs
    simpa using (List.mem_filter.1 hs).2
  obtain ⟨h1, h2⟩ := iterateSlots_of_used f (usedSlots a) userdata [] hall
  rw [List.nil_append] at h1
  have hf : iterateSlots f a.table userdata [] = iterateSlots f (usedSlots a) userdata [] :=
    iterateSlots_filter f a.table userdata []
  refine ⟨heq, ?_, ?_, ?_⟩
  · rw [heq, hf, h1]
  · rw [heq, hf, h2]
  · intro hone
    rw [heq, hf] at hone ⊢
    rw [h1]
    rw [h2] at hone
    by_cases hk : (callResults f (usedSlots a) userdata).findIdx (fun r => decide (r < 0))
        < (usedSlots a).length
    · rw [if_pos hk] at hone; exact absurd hone (by decide)
    · exact List.take_of_length_le (by omega)

/-- Witness of C14: iterating over the table holding `"a"` (value 11) and `"f"`
(value 12) with a user function that fails on the value 12. -/
theorem C14_iterate_witness :
    tableAF.table.length = tableAF.size ∧
    (aaIterateAction tableAF stopAt12 0 = iterateSlots stopAt12 tableAF.table 0 [] ∧
     (aaIterateAction tableAF stopAt12 0).2.2
      = (usedSlots tableAF).take
          ((callResults stopAt12 (usedSlots tableAF) 0).findIdx (fun r => decide (r < 0)) + 1) ∧
     (aaIterateAction tableAF stopAt12 0).1
      = (if (callResults stopAt12 (usedSlots tableAF) 0).findIdx (fun r => decide (r < 0))
            < (usedSlots tableAF).length then -1 else 1) ∧
     ((aaIterateAction tableAF stopAt12 0).1 = 1 →
        (aaIterateAction tableAF stopAt12 0).2.2 = usedSlots tableAF)) :=
  ⟨rfl, C14_iterate tableAF rfl Nat stopAt12 0⟩

/-! ## C15: what a deletion changes -/

/-- C15. On a well-formed table, let the probe of `aaDelete (key)` return `p`.  If `p`
is a slot in use that holds the key, `aaDelete` returns the value stored there, makes
slot `p` a tombstone that keeps its key buffer, key length and value, lowers
`nEntries` by exactly 1 and leaves every other slot as it was.  Otherwise it returns
`NULL` and leaves the slot array and `nEntries` as they were. -/
theorem C15_delete_frame (fuel : Nat) (a : AssociativeArray) (hwf : WellFormed a)
    (key : AAKeyType) (keylen : Nat) (p : HashIndex) (c : Nat)
    (hprobe : callProbe fuel a key keylen (a.hashAlgorithmPrimary key keylen a.size) false
      a.deleteCost = some (p, c)) :
    (0 ≤ p ∧ slotHasKey (slotAt a p.toNat) key keylen = true →
      ∃ b, aaDelete fuel a key keylen = some ((slotAt a p.toNat).value, b) ∧
        slotAt b p.toNat = { slotAt a p.toNat with validity := HASH_DELETED } ∧
        (∀ i, i ≠ p.toNat → slotAt b i = slotAt a i) ∧
        b.table.length = a.table.length ∧
        b.nEntries = a.nEntries - 1) ∧
    (¬ (0 ≤ p ∧ slotHasKey (slotAt a p.toNat) key keylen = true) →
      ∃ b, aaDelete fuel a key keylen = some (0, b) ∧
        b.table = a.table ∧ b.nEntries = a.nEntries) := by
  obtain ⟨n, hn, hc, hends⟩ := (callProbe_eq_some_iff fuel a key keylen false _ p c).1 hprobe
  have hs : ∀ i, slotAt { a with deleteCost := c } i = slotAt a i := fun i => rfl
  constructor
  · rintro ⟨h0, hkey⟩
    have hu := slotHasKey_used _ _ _ hkey
    have hm : slotKeyMatches (slotAt a p.toNat) key keylen = true := by
      simp only [slotHasKey, Bool.and_eq_true] at hkey; exact hkey.2
    have hlt : p.toNat < a.table.length := by
      rcases hends.2 with ⟨_, hidx⟩ | ⟨_, _, hidx⟩
      · rw [hidx, Int.toNat_ofNat, hwf.2.1]; exact probeSeq_lt a hwf key keylen n
      · rw [hidx] at h0; exact absurd h0 (by decide)
    refine ⟨{ a with
              deleteCost := c
              table := a.table.set p.toNat
                { slotAt a p.toNat with validity := HASH_DELETED }
              nEntries := a.nEntries - 1 }, ?_, ?_, ?_, ?_, rfl⟩
    · unfold aaDelete
      simp only [hprobe, hs, h0, hu, hm, and_self, if_true]
    · rw [slotAt_of_set a _ p.toNat _ rfl hlt, if_pos rfl]
    · intro i hi
      rw [slotAt_of_set a _ p.toNat _ rfl hlt, if_neg hi]
    · simp only [List.length_set]
  · intro hnot
    refine ⟨{ a with deleteCost := c }, ?_, rfl, rfl⟩
    unfold aaDelete
    simp only [hprobe, hs]
    by_cases h1 : 0 ≤ p ∧ (slotAt a p.toNat).validity = HASH_USED
    · rw [if_pos h1]
      have hm : ¬ slotKeyMatches (slotAt a p.toNat) key keylen = true := by
        intro hm
        exact hnot ⟨h1.1, by simp [slotHasKey, h1.2, hm]⟩
      rw [if_neg hm]
    · rw [if_neg h1]

/-- Witness of C15: deleting `"a"` from the table holding `"a"` at slot 2 and `"f"` at
slot 3; the probe returns slot 2. -/
theorem C15_delete_frame_witness :
    WellFormed tableAF ∧
    callProbe 5 tableAF [97] 1 (tableAF.hashAlgorithmPrimary [97] 1 tableAF.size) false
      tableAF.deleteCost = some (2, 1) ∧
    ((0 ≤ (2 : Int) ∧ slotHasKey (slotAt tableAF (2 : Int).toNat) [97] 1 = true →
      ∃ b, aaDelete 5 tableAF [97] 1 = some ((slotAt tableAF (2 : Int).toNat).value, b) ∧
        slotAt b (2 : Int).toNat
          = { slotAt tableAF (2 : Int).toNat with validity := HASH_DELETED } ∧
        (∀ i, i ≠ (2 : Int).toNat → slotAt b i = slotAt tableAF i) ∧
        b.table.length = tableAF.table.length ∧
        b.nEntries = tableAF.nEntries - 1) ∧
     (¬ (0 ≤ (2 : Int) ∧ slotHasKey (slotAt tableAF (2 : Int).toNat) [97] 1 = true) →
      ∃ b, aaDelete 5 tableAF [97] 1 = some (0, b) ∧
        b.table = tableAF.table ∧ b.nEntries = tableAF.nEntries)) :=
  ⟨wellFormed_tableAF, rfl, C15_delete_frame 5 tableAF wellFormed_tableAF [97] 1 2 1 rfl⟩

/-! ## C16: the cost counters -/

theorem aaInsert_costs (fuel : Nat) (stray : Validity) (a : AssociativeArray)
    (key : AAKeyType) (keylen value : Nat) (r : Int) (b : AssociativeArray)
    (h : aaInsert fuel stray a key keylen value = some (r, b)) :
    ∃ n idx, n < fuel ∧ ProbeEnds a key keylen true n idx ∧
      b.insertCost = a.insertCost + (n + 1) ∧ b.searchCost = a.searchCost ∧
      b.deleteCost = a.deleteCost := by
  unfold aaInsert at h
  simp only at h
  cases hp : callProbe fuel a key keylen (a.hashAlgorithmPrimary key keylen a.size) true
      a.insertCost with
  | none => rw [hp] at h; cases h
  | some res =>
    obtain ⟨idx, c⟩ := res
    rw [hp] at h
    simp only at h
    obtain ⟨n, hn, hc, hends⟩ := (callProbe_eq_some_iff fuel a key keylen true _ idx c).1 hp
    refine ⟨n, idx, hn, hends, ?_⟩
    split_ifs at h <;> simp only [Option.some.injEq, Prod.mk.injEq] at h <;>
      (rw [← h.2]; exact ⟨by simp only [hc, Nat.add_assoc], rfl, rfl⟩)

theorem aaLookup_costs (fuel : Nat) (a : AssociativeArray) (key : AAKeyType) (keylen : Nat)
    (r : Nat) (b : AssociativeArray) (h : aaLookup fuel a key keylen = some (r, b)) :
    ∃ n idx, n < fuel ∧ ProbeEnds a key keylen false n idx ∧
      b = { a with searchCost := a.searchCost + (n + 1) } := by
  unfold aaLookup at h
  simp only at h
  cases hp : callProbe fuel a key keylen (a.hashAlgorithmPrimary key keylen a.size) false
      a.searchCost with
  | none => rw [hp] at h; cases h
  | some res =>
    obtain ⟨idx, c⟩ := res
    rw [hp] at h
    simp only at h
    obtain ⟨n, hn, hc, hends⟩ := (callProbe_eq_some_iff fuel a key keylen false _ idx c).1 hp
    refine ⟨n, idx, hn, hends, ?_⟩
    split_ifs at h <;> simp only [Option.some.injEq, Prod.mk.injEq] at h <;>
      (rw [← h.2, hc, Nat.add_assoc])

/-- C16. Whenever the three operations return on a table: `aaInsert` adds to
`insertCost` the number `n + 1` of slots its probe examined (the probe ends in
iteration `n`) and leaves `searchCost` and `deleteCost`; `aaLookup` adds the number of
slots its probe examined to `searchCost` and changes nothing else in the table;
`aaDelete` adds the number of slots its probe examined to `deleteCost` and leaves
`insertCost` and `searchCost`.  Each increase is at least 1 and no counter decreases. -/
theorem C16_cost_counters (fuel : Nat) (stray : Validity) (a : AssociativeArray)
    (key : AAKeyType) (keylen value : Nat) (ri : Int) (rl rd : Nat)
    (bi bl bd : AssociativeArray)
    (hins : aaInsert fuel stray a key keylen value = some (ri, bi))
    (hlook : aaLookup fuel a key keylen = some (rl, bl))
    (hdel : aaDelete fuel a key keylen = some (rd, bd)) :
    (∃ n idx, ProbeEnds a key keylen true n idx ∧
      bi.insertCost = a.insertCost + (n + 1) ∧ bi.searchCost = a.searchCost ∧
      bi.deleteCost = a.deleteCost) ∧
    (∃ n idx, ProbeEnds a key keylen false n idx ∧
      bl = { a with searchCost := a.searchCost + (n + 1) }) ∧
    (∃ n idx, ProbeEnds a key keylen false n idx ∧
      bd.deleteCost = a.deleteCost + (n + 1) ∧ bd.insertCost = a.insertCost ∧
      bd.searchCost = a.searchCost) := by
  refine ⟨?_, ?_, ?_⟩
  · obtain ⟨n, idx, _, hends, h⟩ := aaInsert_costs fuel stray a key keylen value ri bi hins
    exact ⟨n, idx, hends, h⟩
  · obtain ⟨n, idx, _, hends, h⟩ := aaLookup_costs fuel a key keylen rl bl hlook
    exact ⟨n, idx, hends, h⟩
  · obtain ⟨n, idx, _, hends, hcase⟩ := aaDelete_cases fuel a key keylen rd bd hdel
    rcases hcase with ⟨_, hb, _⟩ | ⟨_, _, _, hb⟩ <;>
      exact ⟨n, idx, hends, by rw [hb]; exact ⟨by simp only [Nat.add_assoc], rfl, rfl⟩⟩

/-- Witness of C16: the three operations with the key `"f"` on the table holding `"a"`
at slot 2 and `"f"` at slot 3; each probe examines two slots. -/
theorem C16_cost_counters_witness :
    aaInsert 5 HASH_EMPTY tableAF [102] 1 22 = some (-1, { tableAF with insertCost := 5 }) ∧
    aaLookup 5 tableAF [102] 1 = some (12, { tableAF with searchCost := 2 }) ∧
    aaDelete 5 tableAF [102] 1
      = some (12, { tableAF with
                    table := [zeroSlot, zeroSlot, newSlot [97] 1 11,
                      ⟨some [102], 1, 12, HASH_DELETED⟩, zeroSlot]
                    nEntries := 1
                    deleteCost := 2 }) ∧
    ((∃ n idx, ProbeEnds tableAF [102] 1 true n idx ∧
      ({ tableAF with insertCost := 5 } : AssociativeArray).insertCost
        = tableAF.insertCost + (n + 1) ∧
      ({ tableAF with insertCost := 5 } : AssociativeArray).searchCost = tableAF.searchCost ∧
      ({ tableAF with insertCost := 5 } : AssociativeArray).deleteCost
        = tableAF.deleteCost) ∧
    (∃ n idx, ProbeEnds tableAF [102] 1 false n idx ∧
      ({ tableAF with searchCost := 2 } : AssociativeArray)
        = { tableAF with searchCost := tableAF.searchCost + (n + 1) }) ∧
    (∃ n idx, ProbeEnds tableAF [102] 1 false n idx ∧
      ({ tableAF with
         table := [zeroSlot, zeroSlot, newSlot [97] 1 11,
           ⟨some [102], 1, 12, HASH_DELETED⟩, zeroSlot]
         nEntries := 1
         deleteCost := 2 } : AssociativeArray).deleteCost = tableAF.deleteCost + (n + 1) ∧
      ({ tableAF with
         table := [zeroSlot, zeroSlot, newSlot [97] 1 11,
           ⟨some [102], 1, 12, HASH_DELETED⟩, zeroSlot]
         nEntries := 1
         deleteCost := 2 } : AssociativeArray).insertCost = tableAF.insertCost ∧
      ({ tableAF with
         table := [zeroSlot, zeroSlot, newSlot [97] 1 11,
           ⟨some [102], 1, 12, HASH_DELETED⟩, zeroSlot]
         nEntries := 1
         deleteCost := 2 } : AssociativeArray).searchCost = tableAF.searchCost)) :=
  ⟨rfl, rfl, rfl,
    C16_cost_counters 5 HASH_EMPTY tableAF [102] 1 22 (-1) 12 12 _ _ _ rfl rfl rfl⟩

/-! ## C17: strategy names -/

theorem take3_eq_iff (l : List Char) (c1 c2 c3 : Char) :
    l.take 3 = [c1, c2, c3] ↔ ∃ rest, l = c1 :: c2 :: c3 :: rest := by
  constructor
  · intro h
    refine ⟨l.drop 3, ?_⟩
    have := List.take_append_drop 3 l
    rw [h] at this
    exact this.symm
  · rintro ⟨rest, rfl⟩
    rfl

/-- C17. For every name, `lookupNamedHashStrategy` returns `hashBySum` when the name
begins with `"sum"`, `hashByLength` when it begins with `"len"`, the third hash
(`hashByPrime`) when it begins with `"pri"`, and `hashBySum` for every other name;
`lookupNamedProbingStrategy` returns the linear, quadratic and double-hash probe for
names that begin with `"lin"`, `"qua"` and `"dou"`, and the linear probe for every
other name.  Both are total: they return a strategy for every name. -/
theorem C17_strategy_names (hashByPrime : HashAlgorithm) (name : String) :
    (BeginsWith name 's' 'u' 'm' → lookupNamedHashStrategy hashByPrime name = hashBySum) ∧
    (BeginsWith name 'l' 'e' 'n' → lookupNamedHashStrategy hashByPrime name = hashByLength) ∧
    (BeginsWith name 'p' 'r' 'i' → lookupNamedHashStrategy hashByPrime name = hashByPrime) ∧
    (¬ BeginsWith name 's' 'u' 'm' ∧ ¬ BeginsWith name 'l' 'e' 'n' ∧
      ¬ BeginsWith name 'p' 'r' 'i' → lookupNamedHashStrategy hashByPrime name = hashBySum) ∧
    (BeginsWith name 'l' 'i' 'n' → lookupNamedProbingStrategy name = HashProbe.linear) ∧
    (BeginsWith name 'q' 'u' 'a' → lookupNamedProbingStrategy name = HashProbe.quadratic) ∧
    (BeginsWith name 'd' 'o' 'u' → lookupNamedProbingStrategy name = HashProbe.doubleHash) ∧
    (¬ BeginsWith name 'l' 'i' 'n' ∧ ¬ BeginsWith name 'q' 'u' 'a' ∧
      ¬ BeginsWith name 'd' 'o' 'u' → lookupNamedProbingStrategy name = HashProbe.linear) := by
  unfold BeginsWith
  simp only [← take3_eq_iff]
  unfold lookupNamedHashStrategy lookupNamedProbingStrategy
  refine ⟨?_, ?_, ?_, ?_, ?_, ?_, ?_, ?_⟩
  · intro h; rw [if_pos h]
  · intro h
    rw [if_neg (by rw [h]; decide), if_pos h]
  · intro h
    rw [if_neg (by rw [h]; decide), if_neg (by rw [h]; decide), if_pos h]
  · rintro ⟨h1, h2, h3⟩
    rw [if_neg h1, if_neg h2, if_neg h3]
  · intro h; rw [if_pos h]
  · intro h
    rw [if_neg (by rw [h]; decide), if_pos h]
  · intro h
    rw [if_neg (by rw [h]; decide), if_neg (by rw [h]; decide), if_pos h]
  · rintro ⟨h1, h2, h3⟩
    rw [if_neg h1, if_neg h2, if_neg h3]

/-! ## C18, C19: every probe returns within `size` iterations, at a slot that ends the search -/

theorem probeAdvance_iter_lt (k : HashProbe) (size step2 start : Nat) (hpos : 0 < size)
    (hstart : start < size) (n : Nat) :
    ((probeAdvance k size step2 start)^[n] (0, start)).2 < size := by
  cases n with
  | zero => simpa using hstart
  | succ n =>
    rw [Function.iterate_succ_apply']
    cases k <;> simp only [probeAdvance] <;> exact Nat.mod_lt _ hpos

theorem probeFull_iter_last (k : HashProbe) (size step2 start : Nat) (hpos : 0 < size)
    (hstart : start < size) :
    probeFull k size start ((probeAdvance k size step2 start)^[size - 1 + 1] (0, start))
      = true := by
  have hs : size - 1 + 1 = size := by omega
  rw [hs]
  cases k
  · rw [probeState_linear _ _ _ hstart]
    simp [probeFull, Nat.mod_eq_of_lt hstart]
  · simp only [probeFull, probeState_quadratic_fst, decide_True]
  · rw [probeState_doubleHash _ _ _ hstart]
    simp [probeFull, Nat.mod_eq_of_lt hstart]

/-- A probe of any of the three kinds, started at an index below `size`, returns within
`size` iterations; what it returns is `-1` or the index, below `size`, of a slot that
ends the search. -/
theorem walk_probe_spec (k : HashProbe) (a : AssociativeArray) (key : AAKeyType)
    (keylen start : Nat) (flag : Bool) (cost fuel step2 : Nat) (hpos : 0 < a.size)
    (hstart : start < a.size) (hfuel : a.size ≤ fuel) :
    ∃ r c, walk (fun i => stopsAt (slotAt a i) key keylen flag)
        (probeAdvance k a.size step2 start) (probeFull k a.size start) fuel (0, start) cost
        = some (r, c) ∧
      cost + 1 ≤ c ∧ c ≤ cost + a.size ∧
      (r = -1 ∨ (0 ≤ r ∧ r < (a.size : Int) ∧
        stopsAt (slotAt a r.toNat) key keylen flag = true)) := by
  obtain ⟨r, c, hrc⟩ := walk_isSome (fun i => stopsAt (slotAt a i) key keylen flag)
    (probeAdvance k a.size step2 start) (probeFull k a.size start) fuel (0, start) cost
    ⟨a.size - 1, by omega, probeFull_iter_last k a.size step2 start hpos hstart⟩
  obtain ⟨n, _, hc, hends⟩ := (walk_eq_some_iff _ _ _ fuel (0, start) cost r c).1 hrc
  have hn : n < a.size := by
    by_contra hcon
    have := (hends.1 (a.size - 1) (by omega)).2
    rw [probeFull_iter_last k a.size step2 start hpos hstart] at this
    cases this
  refine ⟨r, c, hrc, by omega, by omega, ?_⟩
  rcases hends.2 with ⟨hst, hr⟩ | ⟨_, _, hr⟩
  · right
    have hlt := probeAdvance_iter_lt k a.size step2 start hpos hstart n
    rw [hr]
    refine ⟨Int.ofNat_nonneg _, by exact_mod_cast hlt, ?_⟩
    rw [Int.toNat_ofNat]; exact hst
  · left; exact hr

/-- C18. In a table of positive size, for every key, every start index below `size` and
both values of `invalidEndsSearch`, each of `linearProbe`, `quadraticProbe` and
`doubleHashProbe` returns once it has fuel for `size` iterations, and the cost counter
it returns has grown by at least 1 and by at most `size`. -/
theorem C18_probes_terminate (fuel : Nat) (a : AssociativeArray) (hpos : 0 < a.size)
    (key : AAKeyType) (keylen start : Nat) (hstart : start < a.size) (flag : Bool)
    (cost : Nat) (hfuel : a.size ≤ fuel) :
    (∃ r c, linearProbe fuel a key keylen start flag cost = some (r, c) ∧
      cost + 1 ≤ c ∧ c ≤ cost + a.size) ∧
    (∃ r c, quadraticProbe fuel a key keylen start flag cost = some (r, c) ∧
      cost + 1 ≤ c ∧ c ≤ cost + a.size) ∧
    (∃ r c, doubleHashProbe fuel a key keylen start flag cost = some (r, c) ∧
      cost + 1 ≤ c ∧ c ≤ cost + a.size) := by
  refine ⟨?_, ?_, ?_⟩
  · obtain ⟨r, c, h, h1, h2, _⟩ := walk_probe_spec HashProbe.linear a key keylen start flag
      cost fuel 0 hpos hstart hfuel
    refine ⟨r, c, ?_, h1, h2⟩
    unfold linearProbe
    rw [linearProbeLoop_eq_walk a key keylen start flag 0 fuel 0 start cost]; exact h
  · obtain ⟨r, c, h, h1, h2, _⟩ := walk_probe_spec HashProbe.quadratic a key keylen start flag
      cost fuel 0 hpos hstart hfuel
    refine ⟨r, c, ?_, h1, h2⟩
    unfold quadraticProbe
    rw [quadraticProbeLoop_eq_walk a key keylen start flag 0 fuel 0 start cost]; exact h
  · obtain ⟨r, c, h, h1, h2, _⟩ := walk_probe_spec HashProbe.doubleHash a key keylen start
      flag cost fuel (a.hashAlgorithmSecondary key keylen a.size) hpos hstart hfuel
    refine ⟨r, c, ?_, h1, h2⟩
    unfold doubleHashProbe
    rw [doubleHashProbeLoop_eq_walk a key keylen start flag _ fuel 0 start cost]; exact h

theorem stopsAt_cases (s : KeyDataPair) (key : AAKeyType) (keylen : Nat) (flag : Bool)
    (h : stopsAt s key keylen flag = true) :
    (s.validity = HASH_USED ∧ slotKeyMatches s key keylen = true) ∨
    s.validity = HASH_EMPTY ∨ (flag = true ∧ s.validity = HASH_DELETED) := by
  unfold stopsAt slotHasKey at h
  cases hv : s.validity <;> cases flag <;> simp_all

/-- Witness of C18: the three probes for the key `"f"` from index 2 in the table
holding `"a"` at slot 2 and `"f"` at slot 3. -/
theorem C18_probes_terminate_witness :
    0 < tableAF.size ∧ 2 < tableAF.size ∧ tableAF.size ≤ 5 ∧
    ((∃ r c, linearProbe 5 tableAF [102] 1 2 true 0 = some (r, c) ∧
      0 + 1 ≤ c ∧ c ≤ 0 + tableAF.size) ∧
    (∃ r c, quadraticProbe 5 tableAF [102] 1 2 true 0 = some (r, c) ∧
      0 + 1 ≤ c ∧ c ≤ 0 + tableAF.size) ∧
    (∃ r c, doubleHashProbe 5 tableAF [102] 1 2 true 0 = some (r, c) ∧
      0 + 1 ≤ c ∧ c ≤ 0 + tableAF.size)) :=
  ⟨by decide, by decide, by decide,
    C18_probes_terminate 5 tableAF (by decide) [102] 1 2 (by decide) true 0 (by decide)⟩

/-- C19. In a table of positive size, for every key, every start index below `size` and
both values of `invalidEndsSearch`, each of `linearProbe`, `quadraticProbe` and
`doubleHashProbe` returns `-1` or an index `r` with `0 ≤ r < size`; in the second case
slot `r` is in use with a key that matches the key sought, or is empty, or (only when
`invalidEndsSearch` is set) is a tombstone. -/
theorem C19_probe_result (fuel : Nat) (a : AssociativeArray) (hpos : 0 < a.size)
    (key : AAKeyType) (keylen start : Nat) (hstart : start < a.size) (flag : Bool)
    (cost : Nat) (hfuel : a.size ≤ fuel) :
    (∃ r c, linearProbe fuel a key keylen start flag cost = some (r, c) ∧
      ProbeResultOK a key keylen flag r) ∧
    (∃ r c, quadraticProbe fuel a key keylen start flag cost = some (r, c) ∧
      ProbeResultOK a key keylen flag r) ∧
    (∃ r c, doubleHashProbe fuel a key keylen start flag cost = some (r, c) ∧
      ProbeResultOK a key keylen flag r) := by
  unfold ProbeResultOK
  refine ⟨?_, ?_, ?_⟩
  · obtain ⟨r, c, h, _, _, hr⟩ := walk_probe_spec HashProbe.linear a key keylen start flag
      cost fuel 0 hpos hstart hfuel
    refine ⟨r, c, ?_, ?_⟩
    · unfold linearProbe
      rw [linearProbeLoop_eq_walk a key keylen start flag 0 fuel 0 start cost]; exact h
    · rcases hr with hr | ⟨h0, hlt, hst⟩
      · exact Or.inl hr
      · exact Or.inr ⟨h0, hlt, stopsAt_cases _ _ _ _ hst⟩
  · obtain ⟨r, c, h, _, _, hr⟩ := walk_probe_spec HashProbe.quadratic a key keylen start flag
      cost fuel 0 hpos hstart hfuel
    refine ⟨r, c, ?_, ?_⟩
    · unfold quadraticProbe
      rw [quadraticProbeLoop_eq_walk a key keylen start flag 0 fuel 0 start cost]; exact h
    · rcases hr with hr | ⟨h0, hlt, hst⟩
      · exact Or.inl hr
      · exact Or.inr ⟨h0, hlt, stopsAt_cases _ _ _ _ hst⟩
  · obtain ⟨r, c, h, _, _, hr⟩ := walk_probe_spec HashProbe.doubleHash a key keylen start
      flag cost fuel (a.hashAlgorithmSecondary key keylen a.size) hpos hstart hfuel
    refine ⟨r, c, ?_, ?_⟩
    · unfold doubleHashProbe
      rw [doubleHashProbeLoop_eq_walk a key keylen start flag _ fuel 0 start cost]; exact h
    · rcases hr with hr | ⟨h0, hlt, hst⟩
      · exact Or.inl hr
      · exact Or.inr ⟨h0, hlt, stopsAt_cases _ _ _ _ hst⟩

/-- Witness of C19: the three probes for the key `"f"` from index 2, as lookups, in
the table holding the tombstone of `"a"` at slot 2 and `"f"` at slot 3. -/
theorem C19_probe_result_witness :
    0 < tableDF.size ∧ 2 < tableDF.size ∧ tableDF.size ≤ 5 ∧
    ((∃ r c, linearProbe 5 tableDF [102] 1 2 false 0 = some (r, c) ∧
      ProbeResultOK tableDF [102] 1 false r) ∧
    (∃ r c, quadraticProbe 5 tableDF [102] 1 2 false 0 = some (r, c) ∧
      ProbeResultOK tableDF [102] 1 false r) ∧
    (∃ r c, doubleHashProbe 5 tableDF [102] 1 2 false 0 = some (r, c) ∧
      ProbeResultOK tableDF [102] 1 false r)) :=
  ⟨by decide, by decide, by decide,
    C19_probe_result 5 tableDF (by decide) [102] 1 2 (by decide) false 0 (by decide)⟩

/-! ## C20: double hashing with a step of zero -/

/-- C20 refuted as stated: in the size-5 double-hashing table holding the key `[5]` at
slot 0 (the table after one insert into the empty table), the five-byte key `[1, 1, 1, 1, 1]` has primary hash 0 and secondary hash 0,
slot 0 is in use with a different key, and `doubleHashProbe` returns `-1` after one
iteration: it does return. -/
theorem C20_step_zero_returns :
    aaInsert 5 HASH_EMPTY (emptyTable HashProbe.doubleHash 5) [5] 1 7 = some (0, tableStep0) ∧
    tableStep0.hashAlgorithmPrimary [1, 1, 1, 1, 1] 5 tableStep0.size = 0 ∧
    tableStep0.hashAlgorithmSecondary [1, 1, 1, 1, 1] 5 tableStep0.size = 0 ∧
    (slotAt tableStep0 0).validity = HASH_USED ∧
    slotKeyMatches (slotAt tableStep0 0) [1, 1, 1, 1, 1] 5 = false ∧
    doubleHashProbe 1 tableStep0 [1, 1, 1, 1, 1] 5 0 false 0 = some (-1, 1) ∧
    ¬ (∀ fuel, doubleHashProbe fuel tableStep0 [1, 1, 1, 1, 1] 5 0 false 0 = none) := by
  refine ⟨rfl, by decide, by decide, rfl, by decide, by decide, ?_⟩
  intro h
  have := h 1
  revert this
  decide

/-- C20 amended. When the secondary hash of the key is 0, the start index is below
`size` and the slot at the start index does not end the search (it is in use without
matching the key, or it is a tombstone and `invalidEndsSearch` is not set),
`doubleHashProbe` examines that one slot, finds `j` equal to the start index again and
returns `-1` with the cost counter raised by 1: it always returns. -/
theorem C20_step_zero_reports_full (fuel : Nat) (a : AssociativeArray) (key : AAKeyType)
    (keylen start : Nat) (flag : Bool) (cost : Nat) (hstart : start < a.size)
    (hstep : a.hashAlgorithmSecondary key keylen a.size = 0)
    (hgo : ((slotAt a start).validity = HASH_USED ∧
              slotKeyMatches (slotAt a start) key keylen = false) ∨
           ((slotAt a start).validity = HASH_DELETED ∧ flag = false))
    (hfuel : 1 ≤ fuel) :
    doubleHashProbe fuel a key keylen start flag cost = some (-1, cost + 1) := by
  obtain ⟨f, rfl⟩ : ∃ f, fuel = f + 1 := ⟨fuel - 1, by omega⟩
  unfold doubleHashProbe
  rw [hstep, doubleHashProbeLoop]
  have hmod : start % a.size = start := Nat.mod_eq_of_lt hstart
  rcases hgo with ⟨hu, hk⟩ | ⟨hd, hf⟩
  · simp [slotHasKey, hu, hk, hmod]
  · simp [slotHasKey, hd, hf, hmod]

/-- Witness of C20 amended: the probe of the key `[1, 1, 1, 1, 1]` in `tableStep0`. -/
theorem C20_step_zero_reports_full_witness :
    0 < tableStep0.size ∧
    tableStep0.hashAlgorithmSecondary [1, 1, 1, 1, 1] 5 tableStep0.size = 0 ∧
    (((slotAt tableStep0 0).validity = HASH_USED ∧
        slotKeyMatches (slotAt tableStep0 0) [1, 1, 1, 1, 1] 5 = false) ∨
      ((slotAt tableStep0 0).validity = HASH_DELETED ∧ false = false)) ∧
    1 ≤ 3 ∧
    doubleHashProbe 3 tableStep0 [1, 1, 1, 1, 1] 5 0 false 4 = some (-1, 4 + 1) :=
  ⟨by decide, by decide, Or.inl ⟨rfl, by decide⟩, by decide,
    C20_step_zero_reports_full 3 tableStep0 [1, 1, 1, 1, 1] 5 0 false 4 (by decide)
      (by decide) (Or.inl ⟨rfl, by decide⟩) (by decide)⟩

/-! ## C21: quadratic probing reports a table full that is not -/

theorem wellFormed_tableQuad : WellFormed tableQuad :=
  ⟨by decide, rfl, hashContract_of_sum_length _ (by decide) rfl rfl⟩

theorem reachable_tableQuad : Reachable tableQuad :=
  Reachable.insert 5 HASH_EMPTY _ [101] 1 13 1 _
    (Reachable.insert 5 HASH_EMPTY _ [98] 1 12 3 _
      (Reachable.insert 5 HASH_EMPTY _ [97] 1 11 2 _
        (Reachable.created (fun n => (n : Int)) hashBySum 5 "qua" "sum" "len" _ rfl
          (wellFormed_emptyTable HashProbe.quadratic 5 (by decide)).2.2) rfl) rfl) rfl

/-- C21. For the prime size 5 the table `tableQuad`, built from the empty table under
`quadraticProbe` by three inserts alone, has the slots 0 and 4 empty and does not hold
the key `"f"`; yet `aaInsert ("f", 14)` returns `-1` for every amount of fuel from 5 on
and every stray read: the five indices `(2 + step * step) % 5` the probe examines are
2, 3, 1, 1, 3 and never reach slot 0 or slot 4. -/
theorem C21_quadratic_full_with_empty_slots :
    Nat.Prime 5 ∧
    runOps 5 opsToQuad (emptyTable HashProbe.quadratic 5) = some tableQuad ∧
    Reachable tableQuad ∧
    (slotAt tableQuad 0).validity = HASH_EMPTY ∧ (slotAt tableQuad 4).validity = HASH_EMPTY ∧
    (∀ i, i < 5 → slotKeyMatches (slotAt tableQuad i) [102] 1 = false) ∧
    (∀ fuel stray, 5 ≤ fuel →
      aaInsert fuel stray tableQuad [102] 1 14
        = some (-1, { tableQuad with insertCost := 8 })) ∧
    (∀ step, step < 5 → probeSeq tableQuad [102] 1 step ≠ 0 ∧
      probeSeq tableQuad [102] 1 step ≠ 4) ∧
    (List.range 5).map (probeSeq tableQuad [102] 1) = [2, 3, 1, 1, 3] := by
  refine ⟨Nat.prime_five, rfl, reachable_tableQuad, rfl, rfl, by decide, ?_, by decide,
    by decide⟩
  intro fuel stray hfuel
  have hends : ProbeEnds tableQuad [102] 1 true 4 (-1) := by
    unfold ProbeEnds
    decide
  have hp := (callProbe_eq_some_iff fuel tableQuad [102] 1 true tableQuad.insertCost (-1)
    (tableQuad.insertCost + 4 + 1)).2 ⟨4, by omega, rfl, hends⟩
  exact aaInsert_of_probe_full fuel stray tableQuad [102] 1 14 _ hp

/-! ## C24: the slot `aaInsert` reads when the table is full -/

/-- C24 evaluated: in the full size-3 table (three inserts into the empty table, under
any of the three probes) the probe of `aaInsert ("d", 14)` returns `-1`, and `aaInsert`
then evaluates `table[-1].validity`: the index read is `-1`, outside the slot array,
and the validity it gets is whatever lies there. -/
theorem C24_insert_reads_index_minus_one :
    ∀ probe : HashProbe,
      runOps 3 opsToFull3 (emptyTable probe 3) = some (fullTable3 probe) ∧
      aaInsertReadIndex 3 (fullTable3 probe) [100] 1 = some (-1) ∧
      ¬ InsideTable (fullTable3 probe) (-1) ∧
      (∀ stray, validityAt (fullTable3 probe) stray (-1) = stray) ∧
      (∀ stray, aaInsert 3 stray (fullTable3 probe) [100] 1 14
        = some (-1, { fullTable3 probe with insertCost := 6 })) := by
  intro probe
  cases probe <;>
    exact ⟨rfl, rfl, fun h => absurd h.1 (by decide), fun _ => rfl,
      fun stray => aaInsert_of_probe_full 3 stray _ [100] 1 14 6 rfl⟩

/-- The index `aaInsert` reads is either inside the slot array or the `-1` of a probe
that reported the table full; only the second is outside. -/
theorem aaInsertReadIndex_cases (fuel : Nat) (a : AssociativeArray) (hwf : WellFormed a)
    (hfuel : a.size ≤ fuel) (key : AAKeyType) (keylen : Nat) :
    ∃ r, aaInsertReadIndex fuel a key keylen = some r ∧ (r = -1 ∨ InsideTable a r) := by
  obtain ⟨r, c, hrc⟩ := callProbe_total fuel a hwf hfuel key keylen true a.insertCost
  obtain ⟨n, _, _, hends⟩ := (callProbe_eq_some_iff fuel a key keylen true _ r c).1 hrc
  refine ⟨r, by unfold aaInsertReadIndex; rw [hrc]; rfl, ?_⟩
  rcases hends.2 with ⟨_, hr⟩ | ⟨_, _, hr⟩
  · right
    have hlt := probeSeq_lt a hwf key keylen n
    rw [hr]
    exact ⟨Int.ofNat_nonneg _, by exact_mod_cast hlt⟩
  · exact Or.inl hr

/-! ## C22: a lookup finds every stored key -/

/-- In a well-formed, placed table the lookup probe of a key that some slot in use holds
ends at a slot in use that holds the key. -/
theorem probe_finds_stored (fuel : Nat) (a : AssociativeArray) (hwf : WellFormed a)
    (hpl : Placed a) (hfuel : a.size ≤ fuel) (key : AAKeyType) (keylen cost : Nat) (i : Nat)
    (hi : i < a.size) (hkey : slotHasKey (slotAt a i) key keylen = true) :
    ∃ m, m < fuel ∧
      callProbe fuel a key keylen (a.hashAlgorithmPrimary key keylen a.size) false cost
        = some ((probeSeq a key keylen m : Int), cost + m + 1) ∧
      slotHasKey (slotAt a (probeSeq a key keylen m)) key keylen = true := by
  have hu := slotHasKey_used _ _ _ hkey
  have hm : slotKeyMatches (slotAt a i) key keylen = true := by
    simp only [slotHasKey, Bool.and_eq_true] at hkey; exact hkey.2
  have hm2 := hm
  unfold slotKeyMatches at hm2
  cases hk : (slotAt a i).key with
  | none => rw [hk] at hm2; cases hm2
  | some ks =>
    rw [hk] at hm2
    simp only [decide_eq_true_eq, doKeysMatch_eq_one_iff] at hm2
    obtain ⟨hlen, htake⟩ := hm2
    obtain ⟨n0, hn0, hbefore⟩ := hpl i ks hi (by rw [hu]; decide) hk
    rw [hlen] at hn0 hbefore htake
    have hseq := probeSeq_of_take_eq a hwf.2.2 ks key keylen htake
    have hfl := probeFullAt_of_take_eq a hwf.2.2 ks key keylen htake
    simp only [hseq, hfl] at hn0 hbefore
    have hex : ∃ m, stopsAt (slotAt a (probeSeq a key keylen m)) key keylen false = true :=
      ⟨n0, by rw [hn0]; exact stopsAt_of_slotHasKey _ _ _ _ hkey⟩
    have hspec := Nat.find_spec hex
    have hle : Nat.find hex ≤ n0 :=
      Nat.find_min' hex (by rw [hn0]; exact stopsAt_of_slotHasKey _ _ _ _ hkey)
    have hmin : ∀ k, k < Nat.find hex →
        stopsAt (slotAt a (probeSeq a key keylen k)) key keylen false = false := by
      intro k hk2
      have := Nat.find_min hex hk2
      simpa using this
    have hfull : ∀ k, k < Nat.find hex → probeFullAt a key keylen k = false :=
      fun k hk2 => (hbefore k (by omega)).2
    have hends : ProbeEnds a key keylen false (Nat.find hex)
        (probeSeq a key keylen (Nat.find hex) : Int) :=
      ⟨fun k hk2 => ⟨hmin k hk2, hfull k hk2⟩, Or.inl ⟨hspec, rfl⟩⟩
    have hlt : Nat.find hex < fuel := by
      have := iteration_lt_size a hwf key keylen _ hfull
      omega
    refine ⟨Nat.find hex, hlt,
      (callProbe_eq_some_iff fuel a key keylen false cost _ _).2 ⟨_, hlt, rfl, hends⟩, ?_⟩
    -- the slot where the probe stops is not empty, so it holds the key
    rcases stopsAt_cases _ _ _ _ hspec with ⟨h1, h2⟩ | hempty | ⟨hf, _⟩
    · simp [slotHasKey, h1, h2]
    · exfalso
      rcases Nat.lt_or_eq_of_le hle with hlt2 | heq
      · exact (hbefore _ hlt2).1 hempty
      · rw [heq, hn0, hu] at hempty; cases hempty
    · cases hf

/-- C22. In every table reachable from a newly created one (by `aaInsert`, `aaDelete`
and `aaLookup` calls, under any of the three probes), for every key: the probe of
`aaLookup` returns, and it returns a slot in use that holds the key exactly when some
slot in use of the table holds the key; `aaLookup` then returns the value of the slot
its probe found. -/
theorem C22_lookup_complete (fuel : Nat) (a : AssociativeArray) (hreach : Reachable a)
    (hfuel : a.size ≤ fuel) (key : AAKeyType) (keylen : Nat) :
    ∃ r c, callProbe fuel a key keylen (a.hashAlgorithmPrimary key keylen a.size) false
        a.searchCost = some (r, c) ∧
      ((0 ≤ r ∧ slotHasKey (slotAt a r.toNat) key keylen = true) ↔
        ∃ i, i < a.size ∧ slotHasKey (slotAt a i) key keylen = true) ∧
      aaLookup fuel a key keylen
        = some (lookupValue a r key keylen, { a with searchCost := c }) := by
  have hwf := wellFormed_of_reachable a hreach
  have hpl := placed_of_reachable a hreach
  obtain ⟨r, c, hrc⟩ := callProbe_total fuel a hwf hfuel key keylen false a.searchCost
  obtain ⟨n, hn, hc, hends⟩ := (callProbe_eq_some_iff fuel a key keylen false _ r c).1 hrc
  refine ⟨r, c, hrc, ⟨?_, ?_⟩, ?_⟩
  · rintro ⟨h0, hkey⟩
    refine ⟨r.toNat, ?_, hkey⟩
    rcases hends.2 with ⟨_, hr⟩ | ⟨_, _, hr⟩
    · rw [hr, Int.toNat_ofNat]; exact probeSeq_lt a hwf key keylen n
    · rw [hr] at h0; exact absurd h0 (by decide)
  · rintro ⟨i, hi, hkey⟩
    obtain ⟨m, _, hprobe, hfound⟩ :=
      probe_finds_stored fuel a hwf hpl hfuel key keylen a.searchCost i hi hkey
    rw [hprobe] at hrc
    simp only [Option.some.injEq, Prod.mk.injEq] at hrc
    rw [← hrc.1]
    exact ⟨Int.ofNat_nonneg _, by rw [Int.toNat_ofNat]; exact hfound⟩
  · rw [aaLookup_eq fuel a key keylen n r hn hends, hc]

/-- Witness of C22: the lookup of `"f"` in the reachable table holding the tombstone of
`"a"` at slot 2 and `"f"` at slot 3. -/
theorem C22_lookup_complete_witness :
    Reachable tableDF ∧ tableDF.size ≤ 5 ∧
    ∃ r c, callProbe 5 tableDF [102] 1 (tableDF.hashAlgorithmPrimary [102] 1 tableDF.size)
        false tableDF.searchCost = some (r, c) ∧
      ((0 ≤ r ∧ slotHasKey (slotAt tableDF r.toNat) [102] 1 = true) ↔
        ∃ i, i < tableDF.size ∧ slotHasKey (slotAt tableDF i) [102] 1 = true) ∧
      aaLookup 5 tableDF [102] 1
        = some (lookupValue tableDF r [102] 1, { tableDF with searchCost := c }) :=
  ⟨reachable_tableDF, by decide, C22_lookup_complete 5 tableDF reachable_tableDF (by decide)
    [102] 1⟩

/-! ## C23: linear probing and double hashing examine every slot before reporting full -/

theorem step_no_return (size start step k : Nat) (hstart : start < size)
    (hco : Nat.Coprime step size) (hk0 : 0 < k) (hk : k < size) :
    (start + k * step) % size ≠ start := by
  intro h
  have h1 : start + k * step ≡ start + 0 [MOD size] := by
    unfold Nat.ModEq
    rw [h, Nat.add_zero, Nat.mod_eq_of_lt hstart]
  have h2 : size ∣ k * step := (Nat.modEq_zero_iff_dvd).1 (Nat.ModEq.add_left_cancel' start h1)
  have h3 : size ∣ k := Nat.Coprime.dvd_of_dvd_mul_right hco.symm h2
  have := Nat.le_of_dvd hk0 h3
  omega

theorem step_injective (size start step m m2 : Nat) (hco : Nat.Coprime step size)
    (hm : m < size) (hm2 : m2 < size)
    (h : (start + m * step) % size = (start + m2 * step) % size) : m = m2 := by
  have h1 : m * step ≡ m2 * step [MOD size] := Nat.ModEq.add_left_cancel' start h
  have h2 : m ≡ m2 [MOD size] := Nat.ModEq.cancel_right_of_coprime hco.symm h1
  exact Nat.ModEq.eq_of_lt_of_lt h2 hm hm2

theorem step_surjective (size start step : Nat) (hpos : 0 < size)
    (hco : Nat.Coprime step size) (i : Nat) (hi : i < size) :
    ∃ m, m < size ∧ (start + m * step) % size = i := by
  let f : Fin size → Fin size := fun m => ⟨(start + m.1 * step) % size, Nat.mod_lt _ hpos⟩
  have hinj : Function.Injective f := by
    intro x y hxy
    have : (start + x.1 * step) % size = (start + y.1 * step) % size := by
      simpa [f] using congrArg Fin.val hxy
    exact Fin.ext (step_injective size start step x.1 y.1 hco x.2 y.2 this)
  obtain ⟨m, hm⟩ := (Finite.injective_iff_surjective.1 hinj) ⟨i, hi⟩
  exact ⟨m.1, m.2, by simpa [f] using congrArg Fin.val hm⟩

theorem stopsAt_false_cases (s : KeyDataPair) (key : AAKeyType) (keylen : Nat) (flag : Bool)
    (h : stopsAt s key keylen flag = false) :
    s.validity ≠ HASH_EMPTY ∧ slotHasKey s key keylen = false ∧
      (flag = true → s.validity ≠ HASH_DELETED) := by
  unfold stopsAt at h
  cases hv : s.validity <;> cases flag <;> simp_all

/-- A walk whose iteration `k` looks at index `(start + k * step) % size`, with `step`
coprime to `size`, and which reports full when it is back at `start`, reports full
only after `size` iterations in which no index below `size` stopped it. -/
theorem walk_full_coverage (stops : Nat → Bool) (adv : Nat × Nat → Nat × Nat)
    (full : Nat × Nat → Bool) (size start step : Nat) (hpos : 0 < size)
    (hstart : start < size) (hco : Nat.Coprime step size)
    (hseq : ∀ k, (adv^[k] (0, start)).2 = (start + k * step) % size)
    (hfull : ∀ st, full st = decide (st.2 = start)) (fuel cost c : Nat)
    (h : walk stops adv full fuel (0, start) cost = some (-1, c)) :
    c = cost + size ∧ ∀ i, i < size → stops i = false := by
  obtain ⟨n, _, hc, hends⟩ := (walk_eq_some_iff stops adv full fuel (0, start) cost (-1) c).1 h
  rcases hends.2 with ⟨_, hr⟩ | ⟨hlast, hf, _⟩
  · exfalso
    have h1 : (0 : Int) ≤ ((adv^[n] (0, start)).2 : Int) := Int.ofNat_nonneg _
    have h2 : (-1 : Int) = ((adv^[n] (0, start)).2 : Int) := hr
    omega
  · rw [hfull, hseq] at hf
    have hf2 : (start + (n + 1) * step) % size = start := by simpa using hf
    have hge : size ≤ n + 1 := by
      by_contra hcon
      exact step_no_return size start step (n + 1) hstart hco (by omega) (by omega) hf2
    have hle : n + 1 ≤ size := by
      by_contra hcon
      have := (hends.1 (size - 1) (by omega)).2
      rw [hfull, hseq] at this
      have hs : size - 1 + 1 = size := by omega
      rw [hs, Nat.add_mul_mod_self_left, Nat.mod_eq_of_lt hstart] at this
      simp at this
    refine ⟨by omega, fun i hi => ?_⟩
    obtain ⟨m, hm, hmi⟩ := step_surjective size start step hpos hco i hi
    rw [← hmi, ← hseq]
    rcases Nat.lt_or_ge m n with hlt | hge2
    · exact (hends.1 m hlt).1
    · have : m = n := by omega
      rw [this]; exact hlast

theorem examinedOnce_of_coprime (probe : HashProbe) (size step2 start step : Nat)
    (hpos : 0 < size) (hco : Nat.Coprime step size)
    (hseq : ∀ k, ((probeAdvance probe size step2 start)^[k] (0, start)).2
      = (start + k * step) % size) : ExaminedOnce probe size step2 start := by
  intro i hi
  obtain ⟨m, hm, hmi⟩ := step_surjective size start step hpos hco i hi
  refine ⟨m, ⟨hm, by rw [hseq]; exact hmi⟩, ?_⟩
  rintro m2 ⟨hm2, hm2i⟩
  rw [hseq] at hm2i
  exact step_injective size start step m2 m hco hm2 hm (by rw [hm2i, hmi])

/-- C23. In a table of positive size and from a start index below `size`:
`linearProbe` returns `-1` only after exactly `size` iterations, each slot of the table
is the one examined in exactly one of them, and then no slot is empty, no slot in use
holds the key and (when `invalidEndsSearch` is set) no slot is a tombstone; the same
holds for `doubleHashProbe` when `size` is prime and the secondary hash of the key lies
in `[1, size - 1]`. -/
theorem C23_exhaustive_coverage (fuel : Nat) (a : AssociativeArray) (hpos : 0 < a.size)
    (key : AAKeyType) (keylen start : Nat) (hstart : start < a.size) (flag : Bool)
    (cost c : Nat) :
    (linearProbe fuel a key keylen start flag cost = some (-1, c) →
      c = cost + a.size ∧ ExaminedOnce HashProbe.linear a.size 0 start ∧
      NothingEndsSearch a key keylen flag) ∧
    (Nat.Prime a.size → 1 ≤ a.hashAlgorithmSecondary key keylen a.size →
      a.hashAlgorithmSecondary key keylen a.size ≤ a.size - 1 →
      doubleHashProbe fuel a key keylen start flag cost = some (-1, c) →
      c = cost + a.size ∧
      ExaminedOnce HashProbe.doubleHash a.size
        (a.hashAlgorithmSecondary key keylen a.size) start ∧
      NothingEndsSearch a key keylen flag) := by
  constructor
  · intro h
    unfold linearProbe at h
    rw [linearProbeLoop_eq_walk a key keylen start flag 0 fuel 0 start cost] at h
    have hseq : ∀ k, ((probeAdvance HashProbe.linear a.size 0 start)^[k] (0, start)).2
        = (start + k * 1) % a.size := by
      intro k; rw [probeState_linear _ _ _ hstart, Nat.mul_one]
    obtain ⟨hc, hno⟩ := walk_full_coverage _ _ _ a.size start 1 hpos hstart
      (Nat.coprime_one_left _) hseq (fun _ => rfl) fuel cost c h
    exact ⟨hc, examinedOnce_of_coprime _ _ _ _ 1 hpos (Nat.coprime_one_left _) hseq,
      fun i hi => stopsAt_false_cases _ _ _ _ (hno i hi)⟩
  · intro hprime h1 h2 h
    have hco : Nat.Coprime (a.hashAlgorithmSecondary key keylen a.size) a.size := by
      apply Nat.Coprime.symm
      rw [Nat.Prime.coprime_iff_not_dvd hprime]
      intro hdvd
      have := Nat.le_of_dvd (by omega) hdvd
      omega
    unfold doubleHashProbe at h
    rw [doubleHashProbeLoop_eq_walk a key keylen start flag _ fuel 0 start cost] at h
    have hseq : ∀ k, ((probeAdvance HashProbe.doubleHash a.size
          (a.hashAlgorithmSecondary key keylen a.size) start)^[k] (0, start)).2
        = (start + k * a.hashAlgorithmSecondary key keylen a.size) % a.size := by
      intro k; rw [probeState_doubleHash _ _ _ hstart]
    obtain ⟨hc, hno⟩ := walk_full_coverage _ _ _ a.size start _ hpos hstart hco hseq
      (fun _ => rfl) fuel cost c h
    exact ⟨hc, examinedOnce_of_coprime _ _ _ _ _ hpos hco hseq,
      fun i hi => stopsAt_false_cases _ _ _ _ (hno i hi)⟩

/-- Witness of C23: the probes of the key `"d"` from its hash 1 in the full table of
the prime size 3; its secondary hash (the length hash) is 1, and both probes return
`-1` after three iterations. -/
theorem C23_exhaustive_coverage_witness :
    0 < (fullTable3 HashProbe.linear).size ∧ 1 < (fullTable3 HashProbe.linear).size ∧
    linearProbe 3 (fullTable3 HashProbe.linear) [100] 1 1 true 3 = some (-1, 6) ∧
    doubleHashProbe 3 (fullTable3 HashProbe.linear) [100] 1 1 true 3 = some (-1, 6) ∧
    Nat.Prime (fullTable3 HashProbe.linear).size ∧
    (fullTable3 HashProbe.linear).hashAlgorithmSecondary [100] 1
      (fullTable3 HashProbe.linear).size = 1 ∧
    ((linearProbe 3 (fullTable3 HashProbe.linear) [100] 1 1 true 3 = some (-1, 6) →
      6 = 3 + (fullTable3 HashProbe.linear).size ∧
      ExaminedOnce HashProbe.linear (fullTable3 HashProbe.linear).size 0 1 ∧
      NothingEndsSearch (fullTable3 HashProbe.linear) [100] 1 true) ∧
    (Nat.Prime (fullTable3 HashProbe.linear).size →
      1 ≤ (fullTable3 HashProbe.linear).hashAlgorithmSecondary [100] 1
        (fullTable3 HashProbe.linear).size →
      (fullTable3 HashProbe.linear).hashAlgorithmSecondary [100] 1
        (fullTable3 HashProbe.linear).size ≤ (fullTable3 HashProbe.linear).size - 1 →
      doubleHashProbe 3 (fullTable3 HashProbe.linear) [100] 1 1 true 3 = some (-1, 6) →
      6 = 3 + (fullTable3 HashProbe.linear).size ∧
      ExaminedOnce HashProbe.doubleHash (fullTable3 HashProbe.linear).size
        ((fullTable3 HashProbe.linear).hashAlgorithmSecondary [100] 1
          (fullTable3 HashProbe.linear).size) 1 ∧
      NothingEndsSearch (fullTable3 HashProbe.linear) [100] 1 true)) :=
  ⟨by decide, by decide, rfl, rfl, Nat.prime_three, rfl,
    C23_exhaustive_coverage 3 (fullTable3 HashProbe.linear) (by decide) [100] 1 1 (by decide)
      true 3 6⟩

end AALib
